import Mathlib

/-!
Shallow embedding of the folder/file resolution and note-linking core of the
Jarvis note assistant (`jarvis_app.py`), together with theorems settling the
frozen claims about it.

Modelling conventions:
* Filesystem paths are vault-relative lists of path components
  (`List String`); `os.path.join(VAULT_PATH, p)` becomes just `p`,
  `os.path.dirname` becomes `List.dropLast`, `os.path.basename` becomes
  `List.getLastD ""`, and `os.path.relpath (q, VAULT_PATH)` is the identity on
  the vault-relative component list.  Rendering a component list back to the
  raw string the Python code would print uses `/` as separator.
* The vault is an explicit tree of entries (`Entry`); directory-listing order
  (`os.listdir`, `os.walk`) is the order of children in the tree, and a newly
  created file appears at the end of its folder's listing.
* `open(path, "w")` / `open(path, "a")` are pure tree updates (`writeList` /
  `appendList`); the OS exceptions the Python code catches (e.g. appending to
  a directory) are modelled as explicit error-message branches.
* The external language-model call `generate_note` is an excluded collaborator
  in the spec; its output is passed to `handle_note_generation` as the
  `noteContent` argument.
* Python string operations are embedded over `List Char`
  (`str.lower`, `str.startswith`, `str.endswith`, `in`, `str.strip`,
  `str.rstrip(chars)`, slicing, `os.path.splitext`, `str(int)`).
-/

/-- Python `str.lower()` (character-wise lowering, as for the ASCII names involved). -/
def pyLower (s : String) : String := String.mk (s.toList.map Char.toLower)

/-- Whether the first list is an initial segment of the second. -/
def charsStart : List Char → List Char → Bool
  | [], _ => true
  | _ :: _, [] => false
  | a :: ps, b :: ss => a == b && charsStart ps ss

/-- Python `s.startswith(pfx)`. -/
def pyStartsWith (s pfx : String) : Bool := charsStart pfx.toList s.toList

/-- Python `s.endswith(sfx)`. -/
def pyEndsWith (s sfx : String) : Bool :=
  charsStart sfx.toList.reverse s.toList.reverse

/-- Whether `needle` occurs as a contiguous run inside `hay`. -/
def charsSub (needle : List Char) : List Char → Bool
  | [] => needle.isEmpty
  | b :: t => charsStart needle (b :: t) || charsSub needle t

/-- Python `needle in hay` on strings. -/
def pyIn (needle hay : String) : Bool := charsSub needle.toList hay.toList

/-- Python `s.strip()` (trim whitespace on both ends). -/
def pyStrip (s : String) : String :=
  String.mk (((s.toList.dropWhile Char.isWhitespace).reverse.dropWhile
    Char.isWhitespace).reverse)

/-- Python `s.rstrip(cs)`: drop from the right every trailing character that
belongs to the set `cs` (NOT suffix removal). -/
def pyRstrip (s : String) (cs : List Char) : String :=
  String.mk ((s.toList.reverse.dropWhile (fun c => cs.contains c)).reverse)

/-- Python slicing `s[n:]`. -/
def strDrop (s : String) (n : Nat) : String := String.mk (s.toList.drop n)

/-- Python slicing `s[:-n]`. -/
def strDropRight (s : String) (n : Nat) : String :=
  String.mk (s.toList.take (s.toList.length - n))

/-- Render a vault-relative component list the way the Python code's path
strings read. -/
def renderPath (p : List String) : String := String.intercalate "/" p

/-- The character for a decimal digit value. -/
def digitChar (d : Nat) : Char := Char.ofNat (48 + d)

/-- Decimal digits of `n`, least significant first; `fuel`-bounded so that the
definition is structurally recursive (any `fuel ≥ n` gives all digits). -/
def digitsRevAux : Nat → Nat → List Nat
  | 0, _ => []
  | fuel + 1, n => if n = 0 then [] else n % 10 :: digitsRevAux fuel (n / 10)

/-- Python `str(n)` for a natural number: standard decimal rendering. -/
def natRepr (n : Nat) : String :=
  if n = 0 then "0" else String.mk (((digitsRevAux n n).reverse).map digitChar)

/-- Value of a least-significant-first digit list. -/
def valRev : List Nat → Nat
  | [] => 0
  | d :: ds => d + 10 * valRev ds

theorem digitsRevAux_val (fuel : Nat) :
    ∀ n, n ≤ fuel → valRev (digitsRevAux fuel n) = n := by
  induction fuel with
  | zero => intro n hn; interval_cases n; simp [digitsRevAux, valRev]
  | succ f ih =>
    intro n hn
    by_cases h0 : n = 0
    · simp [digitsRevAux, h0, valRev]
    · have hpos : 1 ≤ n := Nat.one_le_iff_ne_zero.mpr h0
      have hlt : n / 10 < n := Nat.div_lt_self hpos (by omega)
      have hle : n / 10 ≤ f := by omega
      simp only [digitsRevAux, h0, if_false, valRev]
      rw [ih (n / 10) hle]
      omega

theorem digitsRevAux_lt (fuel : Nat) :
    ∀ n d, d ∈ digitsRevAux fuel n → d < 10 := by
  induction fuel with
  | zero => intro n d hd; simp [digitsRevAux] at hd
  | succ f ih =>
    intro n d hd
    by_cases h0 : n = 0
    · simp [digitsRevAux, h0] at hd
    · simp only [digitsRevAux, h0, if_false, List.mem_cons] at hd
      rcases hd with h | h
      · subst h; exact Nat.mod_lt _ (by omega)
      · exact ih _ _ h

theorem digitChar_inj_lt :
    ∀ a < 10, ∀ b < 10, digitChar a = digitChar b → a = b := by decide

theorem map_digitChar_inj :
    ∀ l₁ l₂ : List Nat, (∀ d ∈ l₁, d < 10) → (∀ d ∈ l₂, d < 10) →
      l₁.map digitChar = l₂.map digitChar → l₁ = l₂ := by
  intro l₁
  induction l₁ with
  | nil => intro l₂ _ _ h; cases l₂ <;> simp_all
  | cons a t ih =>
    intro l₂ h₁ h₂ h
    cases l₂ with
    | nil => simp at h
    | cons b t₂ =>
      simp only [List.map_cons, List.cons.injEq] at h
      have ha : a = b := digitChar_inj_lt a (h₁ a (by simp)) b (h₂ b (by simp)) h.1
      have ht : t = t₂ := ih t₂ (fun d hd => h₁ d (by simp [hd]))
        (fun d hd => h₂ d (by simp [hd])) h.2
      rw [ha, ht]

theorem natRepr_inj {a b : Nat} (h : natRepr a = natRepr b) : a = b := by
  have hdata := congrArg String.data h
  by_cases ha : a = 0 <;> by_cases hb : b = 0
  · omega
  · exfalso
    simp only [natRepr, ha, hb, if_true, if_false] at hdata
    have hd : ((digitsRevAux b b).reverse).map digitChar = ['0'] := hdata.symm
    have : (digitsRevAux b b).reverse = [0] := by
      have h10 : (0 : Nat) < 10 := by omega
      apply map_digitChar_inj _ [0]
      · intro d hd'
        exact digitsRevAux_lt b b d (List.mem_reverse.mp hd')
      · intro d hd'; simp at hd'; omega
      · simpa [digitChar] using hd
    have hb0 : digitsRevAux b b = [0] := by
      have := congrArg List.reverse this
      simpa using this
    have := digitsRevAux_val b b (Nat.le_refl b)
    rw [hb0] at this
    simp [valRev] at this
    omega
  · exfalso
    simp only [natRepr, ha, hb, if_true, if_false] at hdata
    have hd : ((digitsRevAux a a).reverse).map digitChar = ['0'] := hdata
    have : (digitsRevAux a a).reverse = [0] := by
      apply map_digitChar_inj _ [0]
      · intro d hd'
        exact digitsRevAux_lt a a d (List.mem_reverse.mp hd')
      · intro d hd'; simp at hd'; omega
      · simpa [digitChar] using hd
    have ha0 : digitsRevAux a a = [0] := by
      have := congrArg List.reverse this
      simpa using this
    have := digitsRevAux_val a a (Nat.le_refl a)
    rw [ha0] at this
    simp [valRev] at this
    omega
  · simp only [natRepr, ha, hb, if_false] at hdata
    have hmap : ((digitsRevAux a a).reverse).map digitChar
        = ((digitsRevAux b b).reverse).map digitChar := hdata
    have hrev : (digitsRevAux a a).reverse = (digitsRevAux b b).reverse := by
      apply map_digitChar_inj _ _ _ _ hmap
      · intro d hd'; exact digitsRevAux_lt a a d (List.mem_reverse.mp hd')
      · intro d hd'; exact digitsRevAux_lt b b d (List.mem_reverse.mp hd')
    have hdig : digitsRevAux a a = digitsRevAux b b := by
      have := congrArg List.reverse hrev
      simpa using this
    have hva := digitsRevAux_val a a (Nat.le_refl a)
    have hvb := digitsRevAux_val b b (Nat.le_refl b)
    rw [hdig] at hva
    omega

/-- Python `int(s)` on a string of decimal digits. -/
def digitsToNat (s : String) : Nat :=
  s.toList.foldl (fun a c => 10 * a + (c.toNat - 48)) 0

/-- Python `os.path.splitext` on a plain filename: split at the last dot,
except that dots in the leading run of dots never start an extension. -/
def splitext (s : String) : String × String :=
  let cs := s.toList
  let lead := (cs.takeWhile (fun c => c == '.')).length
  match cs.reverse.findIdx? (fun c => c == '.') with
  | some j =>
    let pos := cs.length - 1 - j
    if lead < pos then (String.mk (cs.take pos), String.mk (cs.drop pos))
    else (s, "")
  | none => (s, "")

/-- A vault filesystem entry: a markdown/text file with its content, or a
directory with its ordered children. -/
inductive Entry where
  | file : String → String → Entry
  | dir : String → List Entry → Entry

/-- The name of an entry as `os.listdir` reports it. -/
def entryName : Entry → String
  | .file n _ => n
  | .dir n _ => n

/-- Children of the directory at a vault-relative path (`[]` is the vault
root); `none` when the path does not lead to a directory. -/
def childrenAt : List Entry → List String → Option (List Entry)
  | es, [] => some es
  | es, n :: rest =>
    match es.find? (fun e => entryName e == n) with
    | some (.dir _ ch) => childrenAt ch rest
    | _ => none

/-- The entry at a nonempty vault-relative path, if any. -/
def lookupE : List Entry → List String → Option Entry
  | _, [] => none
  | es, [n] => es.find? (fun e => entryName e == n)
  | es, n :: rest =>
    match es.find? (fun e => entryName e == n) with
    | some (.dir _ ch) => lookupE ch rest
    | _ => none

/-- Python `os.path.isdir` relative to the vault root. -/
def isDir (es : List Entry) (p : List String) : Bool :=
  match p with
  | [] => true
  | _ =>
    match lookupE es p with
    | some (.dir _ _) => true
    | _ => false

/-- Reading a file's content at a vault-relative path. -/
def readFile (es : List Entry) (p : List String) : Option String :=
  match lookupE es p with
  | some (.file _ c) => some c
  | _ => none

/-- One step of a file update inside a single directory listing: `g` maps the
old content (or `none` when the file does not yet exist) to the new content.
An existing file is updated in place; otherwise the file is appended at the
end of the listing.  Directories are never altered by it (the Python code
would raise, which callers model as an explicit error branch). -/
def childUpdate (g : Option String → String) (es : List Entry) (n : String) :
    List Entry :=
  if es.any (fun e => entryName e == n) then
    es.map (fun e =>
      match e with
      | .file m oc => if m == n then .file m (g (some oc)) else .file m oc
      | .dir m ch => .dir m ch)
  else es ++ [.file n (g none)]

/-- Update the file at a vault-relative path with content transform `g`
(no-op when an intermediate directory is missing). -/
def updateAt (g : Option String → String) : List Entry → List String → List Entry
  | es, [] => es
  | es, [n] => childUpdate g es n
  | es, n :: rest => es.map (fun e =>
      match e with
      | .dir m ch => if m == n then .dir m (updateAt g ch rest) else .dir m ch
      | .file m c => .file m c)

/-- Python `open(p, "w"); write(c)`: create or truncate-and-write. -/
def writeList (es : List Entry) (p : List String) (c : String) : List Entry :=
  updateAt (fun _ => c) es p

/-- Python `open(p, "a"); write(c)`: create or append. -/
def appendList (es : List Entry) (p : List String) (c : String) : List Entry :=
  updateAt (fun oc => (oc.getD "") ++ c) es p

/-- The `(root, dirs, files)` loop of `find_folder`'s `os.walk`: the sequence
of directory paths whose names the search examines, in visiting order
(the `dirs` of each visited directory, the vault walked top-down,
depth-first, no pruning). -/
def dirChildPaths (pre : List String) (es : List Entry) : List (List String) :=
  es.filterMap (fun e =>
    match e with
    | .dir n _ => some (pre ++ [n])
    | .file _ _ => none)

/-- The tail of the walk after the top listing: the walks of every child
directory, in listing order. -/
def walkChecksKids : List String → List Entry → List (List String)
  | _, [] => []
  | pre, .file _ _ :: rest => walkChecksKids pre rest
  | pre, .dir n ch :: rest =>
    (dirChildPaths (pre ++ [n]) ch ++ walkChecksKids (pre ++ [n]) ch)
      ++ walkChecksKids pre rest

/-- All directory paths `find_folder` examines, in examination order. -/
def walkChecks (pre : List String) (es : List Entry) : List (List String) :=
  dirChildPaths pre es ++ walkChecksKids pre es

/-- `find_folder(vault_path, folder_name)`: first directory anywhere under the
vault whose name contains `folderName` case-insensitively. -/
def find_folder (vault : List Entry) (folderName : String) :
    Option (List String) :=
  (walkChecks [] vault).find?
    (fun p => pyIn (pyLower folderName) (pyLower (p.getLastD "")))

/-- `resolve_directory(vault_path, folder_path)`: the expected location if it
is a directory, else a fuzzy search on the last path component. -/
def resolve_directory (vault : List Entry) (folderPath : List String) :
    Option (List String) :=
  if isDir vault folderPath then some folderPath
  else find_folder vault (folderPath.getLastD "")

/-- `resolve_file_path(filename)`: resolve the folder part (directly, then
fuzzily) and re-attach the base name. -/
def resolve_file_path (vault : List Entry) (filename : List String) :
    Option (List String) :=
  let folderPart := filename.dropLast
  let baseName := filename.getLastD ""
  if folderPart.isEmpty then some filename
  else
    match
      (if isDir vault folderPart then some folderPart
       else resolve_directory vault folderPart) with
    | some f => some (f ++ [baseName])
    | none => none

/-- The `i`-th probe name `f"{name}_{i}{ext}"` of the unique-filename loop. -/
def probeName (nm ext : String) (i : Nat) : String :=
  nm ++ "_" ++ natRepr i ++ ext

/-- The `while True` probe loop of `get_unique_filename`, made structural with
fuel; the caller supplies enough fuel for the loop to terminate in the model
exactly as it does on a real (finite) folder. -/
def probeAux (existing : List String) (nm ext : String) :
    Nat → Nat → Option String
  | 0, _ => none
  | fuel + 1, i =>
    if existing.contains (probeName nm ext i) then
      probeAux existing nm ext fuel (i + 1)
    else some (probeName nm ext i)

/-- `get_unique_filename(folder, base_name)`: the chosen file NAME inside the
folder (the Python function returns `os.path.join(folder, name)`; callers
re-attach the folder).  `os.path.exists` on `folder/name` is membership of
`name` in the folder's listing. -/
def get_unique_filename (vault : List Entry) (folder : List String)
    (baseName : String) : String :=
  let existing := ((childrenAt vault folder).getD []).map entryName
  if existing.contains baseName then
    let pr := splitext baseName
    (probeAux existing pr.1 pr.2 (existing.length + 1) 1).getD baseName
  else baseName

/-- The regex match `re.match(r"(\d+)\.(\d+)", note_title)`: the two greedy
leading digit groups around the first dot, when the title starts that way. -/
def parseNumbering (s : String) : Option (String × String) :=
  let cs := s.toList
  let d1 := cs.takeWhile Char.isDigit
  if d1.isEmpty then none
  else
    match cs.drop d1.length with
    | '.' :: r2 =>
      let d2 := r2.takeWhile Char.isDigit
      if d2.isEmpty then none else some (String.mk d1, String.mk d2)
    | _ => none

/-- Appending the note extension when the (lowered) title lacks it. -/
def ensureMd (t : String) : String :=
  if pyEndsWith (pyLower t) ".md" then t else t ++ ".md"

/-- The backlink-candidate test of `handle_note_linking`'s listing loop:
`file.lower().startswith(prev_prefix.lower()) and file.lower().endswith(".md")`
(the argument `pfxLow` is the already-lowered previous-note pattern). -/
def mdLinkTarget (pfxLow nm : String) : Bool :=
  pyStartsWith (pyLower nm) pfxLow && pyEndsWith (pyLower nm) ".md"

/-- Listing-entry version of `mdLinkTarget`. -/
def linkMatch (pfxLow : String) (e : Entry) : Bool :=
  mdLinkTarget pfxLow (entryName e)

/-- `handle_note_linking(folder, note_title, match)` with the regex groups
`ma`, `mi` already extracted.  Returns the status fragment and the new vault.
The two `except`-paths (listing a missing folder, appending onto a directory)
are modelled as explicit error fragments. -/
def handle_note_linking (vault : List Entry) (folder : List String)
    (noteTitle ma mi : String) : String × List Entry :=
  let mv := digitsToNat mi
  if 1 ≤ mv then
    let prevPat := ma ++ "." ++ natRepr (mv - 1)
    match childrenAt vault folder with
    | none => (" Error linking note: folder not found.", vault)
    | some ls =>
      match ls.find? (linkMatch (pyLower prevPat)) with
      | some (.file fn _) =>
        let linkText := "\n\n[[" ++ pyStrip (pyRstrip noteTitle ['.', 'm', 'd']) ++ "]]"
        (" Link added in " ++ fn ++ " to " ++ noteTitle ++ ".",
         appendList vault (folder ++ [fn]) linkText)
      | some (.dir fn _) =>
        (" Error linking note: " ++ fn ++ " is a directory.", vault)
      | none => (" No previous note found to link from.", vault)
  else (" Invalid note numbering for linking.", vault)

/-- The followup title after stripping, unwrapping `[[...]]` and ensuring the
extension (the `followup_title` local of `handle_followup_note`). -/
def followupTitleOf (followup : String) : String :=
  let t0 := pyStrip followup
  let t1 :=
    if pyStartsWith t0 "[[" && pyEndsWith t0 "]]" then
      pyStrip (strDropRight (strDrop t0 2) 2)
    else t0
  if pyEndsWith (pyLower t1) ".md" then t1 else t1 ++ ".md"

/-- `handle_followup_note(folder, note_title, followup, current_file_path)`:
write a heading-only stub at a unique name and append a link to it at the end
of the current note. -/
def handle_followup_note (vault : List Entry) (folder : List String)
    (_noteTitle followup : String) (currentPath : List String) :
    String × List Entry :=
  let t2 := followupTitleOf followup
  let fn := get_unique_filename vault folder t2
  let fs1 := writeList vault (folder ++ [fn]) ("# " ++ strDropRight t2 3 ++ "\n\n")
  let fs2 := appendList fs1 currentPath
    ("\n\n[[" ++ pyStrip (strDropRight t2 3) ++ "]]")
  (" Followup note created as " ++ renderPath (folder ++ [fn]) ++ ".", fs2)

/-- `handle_note_generation(source, followup, note_title, location)` with the
external `generate_note` output supplied as `noteContent` (the excluded
language-model collaborator). -/
def handle_note_generation (vault : List Entry)
    (noteContent followup noteTitle0 : String) (location : List String) :
    String × List Entry :=
  let noteTitle := ensureMd noteTitle0
  if location.isEmpty then (noteContent, vault)
  else
    match resolve_directory vault location with
    | none => ("Folder '" ++ renderPath location ++ "' not found in vault.", vault)
    | some folder =>
      let fn := get_unique_filename vault folder noteTitle
      let fpath := folder ++ [fn]
      let fs1 := writeList vault fpath noteContent
      let res0 := "Note saved as " ++ renderPath fpath ++ "."
      let step1 :=
        match parseNumbering noteTitle with
        | some (ma, mi) => handle_note_linking fs1 folder noteTitle ma mi
        | none => ("", fs1)
      let step2 :=
        if followup.isEmpty then ("", step1.2)
        else handle_followup_note step1.2 folder noteTitle followup fpath
      (res0 ++ step1.1 ++ step2.1, step2.2)

/-- The visible (non-hidden) subdirectories of a listing, in order — the
`dirs[:] = [d for d in dirs if not d.startswith(".")]` pruning of
`get_vault_structure`'s walk. -/
def visibleDirs (es : List Entry) : List (String × List Entry) :=
  es.filterMap (fun e =>
    match e with
    | .dir n ch => if pyStartsWith n "." then none else some (n, ch)
    | .file _ _ => none)

/-- The markdown files of a listing with their `name`/`path` fields as the
walker records them (`file.endswith(".md")`, case-sensitive). -/
def mdFileList (pre : List String) (es : List Entry) :
    List (String × List String) :=
  es.filterMap (fun e =>
    match e with
    | .file n _ => if pyEndsWith n ".md" then some (n, pre ++ [n]) else none
    | .dir _ _ => none)

/-- The pruned `os.walk` visits after a directory's own `(root, dirs, files)`
tuple: every visible child subtree, depth-first, in listing order. -/
def walkVisitKids : List String → List Entry → List (List String × List Entry)
  | _, [] => []
  | pre, .file _ _ :: rest => walkVisitKids pre rest
  | pre, .dir n ch :: rest =>
    if pyStartsWith n "." then walkVisitKids pre rest
    else ((pre ++ [n], ch) :: walkVisitKids (pre ++ [n]) ch)
      ++ walkVisitKids pre rest

/-- The full pruned walk starting at a directory: itself, then its visible
subtrees. -/
def walkVisit (pre : List String) (es : List Entry) :
    List (List String × List Entry) :=
  (pre, es) :: walkVisitKids pre es

/-- A node of the structure `get_vault_structure` builds:
`{path, name, files, folders}`. -/
inductive VNode where
  | node : List String → String → List (String × List String) → List VNode →
      VNode

/-- The `path` field of a node. -/
def VNode.path : VNode → List String
  | .node p _ _ _ => p

/-- The `folders` field of a node. -/
def VNode.folders : VNode → List VNode
  | .node _ _ _ ds => ds

/-- Append a child into a node's `folders` list. -/
def VNode.addChild : VNode → VNode → VNode
  | .node p n fs ds, c => .node p n fs (ds ++ [c])

/-- The fresh node the walker builds for a visited directory (the root's
display name is modelled as `"Root"`, the walker's fallback). -/
def mkNode (pre : List String) (es : List Entry) : VNode :=
  VNode.node pre (pre.getLastD "Root") (mdFileList pre es) []

/-- The parent lookup of the walker: nest the new node inside the FIRST
top-level node whose `path` equals the parent path, else append it at the top
level. -/
def addNode : List VNode → List String → VNode → List VNode
  | [], _, nd => [nd]
  | v :: rest, pp, nd =>
    if v.path == pp then v.addChild nd :: rest
    else v :: addNode rest pp nd

/-- Placement of one visited directory's node (`if parent_path: ... else
structure.append`). -/
def placeNode (st : List VNode) (pp : List String) (nd : VNode) :
    List VNode :=
  if pp.isEmpty then st ++ [nd] else addNode st pp nd

/-- The walker's fold over the visit sequence. -/
def buildStructure : List VNode → List (List String × List Entry) → List VNode
  | st, [] => st
  | st, (p, es) :: rest =>
    buildStructure (placeNode st p.dropLast (mkNode p es)) rest

/-- `get_vault_structure()`: walk the vault and fold the visited directories
into the displayed structure. -/
def get_vault_structure (vault : List Entry) : List VNode :=
  buildStructure [] (walkVisit [] vault)

/-- Every `(parent.path, child.path)` nesting pair occurring anywhere in a
built structure. -/
def nodesPairs : List VNode → List (List String × List String)
  | [] => []
  | .node p _ _ ds :: rest =>
    ds.map (fun c => (p, c.path)) ++ nodesPairs ds ++ nodesPairs rest

/-- Per-level distinctness of a name list. -/
def distinctB : List String → Bool
  | [] => true
  | x :: xs => !(xs.contains x) && distinctB xs

/-- Well-formedness of a vault tree as a real filesystem: sibling entry names
are distinct, recursively. -/
def wfEntries : List Entry → Bool
  | [] => true
  | .file n _ :: rest => !((rest.map entryName).contains n) && wfEntries rest
  | .dir n ch :: rest =>
    !((rest.map entryName).contains n) && wfEntries ch && wfEntries rest

/-- Proper-descendant relation on component paths. -/
def properUnder (p q : List String) : Prop := ∃ t, t ≠ [] ∧ q = p ++ t

theorem find?_name_of_contains_eq_false {es : List Entry} {n : String}
    (h : ((es.map entryName).contains n) = false) :
    es.find? (fun e => entryName e == n) = none := by
  rw [List.find?_eq_none]
  intro e he hbe
  have hn : entryName e = n := by simpa using hbe
  have hmem : n ∈ es.map entryName := List.mem_map.mpr ⟨e, he, hn⟩
  simp only [List.contains, List.elem_eq_mem, decide_eq_false_iff_not] at h
  exact h hmem

theorem childUpdate_find?_ne {g : Option String → String} {es : List Entry}
    {n m : String} (hmn : m ≠ n) :
    (childUpdate g es n).find? (fun e => entryName e == m)
      = es.find? (fun e => entryName e == m) := by
  unfold childUpdate
  by_cases hany : es.any (fun e => entryName e == n)
  · simp only [hany, if_true]
    rw [List.find?_map]
    have hcomp : ((fun e => entryName e == m) ∘ (fun e =>
        match e with
        | .file mm oc => if mm == n then Entry.file mm (g (some oc)) else .file mm oc
        | .dir mm ch => .dir mm ch)) = (fun e => entryName e == m) := by
      funext e
      cases e with
      | file mm oc =>
        by_cases hmm : mm = n <;> simp [entryName, hmm]
      | dir mm ch => simp [entryName]
    rw [hcomp]
    cases hf : es.find? (fun e => entryName e == m) with
    | none => simp
    | some e =>
      have hpe := List.find?_some hf
      have hname : entryName e = m := by simpa using hpe
      cases e with
      | file mm oc =>
        simp only [entryName] at hname
        have hne : ¬ (mm = n) := by rw [hname]; exact hmn
        simp [hne]
      | dir mm ch => simp
  · have hany' : es.any (fun e => entryName e == n) = false := by
      simpa using hany
    simp only [hany', Bool.false_eq_true, if_false]
    rw [List.find?_append]
    cases hf : es.find? (fun e => entryName e == m) with
    | none =>
      have : (entryName (Entry.file n (g none)) == m) = false := by
        simp only [entryName]
        simpa using fun h => hmn h.symm
      simp [List.find?, this]
    | some e => simp

theorem childUpdate_find?_eq (g : Option String → String) (es : List Entry)
    (n : String) :
    (childUpdate g es n).find? (fun e => entryName e == n)
      = match es.find? (fun e => entryName e == n) with
        | some (.file m oc) => some (.file m (g (some oc)))
        | some (.dir m ch) => some (.dir m ch)
        | none => some (.file n (g none)) := by
  unfold childUpdate
  by_cases hany : es.any (fun e => entryName e == n)
  · simp only [hany, if_true]
    rw [List.find?_map]
    have hcomp : ((fun e => entryName e == n) ∘ (fun e =>
        match e with
        | .file mm oc => if mm == n then Entry.file mm (g (some oc)) else .file mm oc
        | .dir mm ch => .dir mm ch)) = (fun e => entryName e == n) := by
      funext e
      cases e with
      | file mm oc =>
        by_cases hmm : mm = n <;> simp [entryName, hmm]
      | dir mm ch => simp [entryName]
    rw [hcomp]
    cases hf : es.find? (fun e => entryName e == n) with
    | none =>
      exfalso
      rw [List.find?_eq_none] at hf
      rw [List.any_eq_true] at hany
      obtain ⟨e, he, hpe⟩ := hany
      exact absurd hpe (by simpa using hf e he)
    | some e =>
      have hpe := List.find?_some hf
      cases e with
      | file mm oc =>
        have hmm : mm = n := by simpa [entryName] using hpe
        simp [hmm]
      | dir mm ch => simp
  · have hany' : es.any (fun e => entryName e == n) = false := by
      simpa using hany
    simp only [hany', Bool.false_eq_true, if_false]
    rw [List.find?_append]
    have hf : es.find? (fun e => entryName e == n) = none := by
      rw [List.find?_eq_none]
      intro e he hpe
      rw [List.any_eq_true] at hany
      exact hany ⟨e, he, hpe⟩
    rw [hf]
    simp [List.find?, entryName]

theorem find?_map_namePres (f : Entry → Entry)
    (hf : ∀ e, entryName (f e) = entryName e) (es : List Entry) (m : String) :
    (es.map f).find? (fun e => entryName e == m)
      = (es.find? (fun e => entryName e == m)).map f := by
  rw [List.find?_map]
  have : ((fun e => entryName e == m) ∘ f) = (fun e => entryName e == m) := by
    funext e
    simp [Function.comp, hf e]
  rw [this]

theorem entryName_updateMap (g : Option String → String) (n : String)
    (rest : List String) (e : Entry) :
    entryName ((fun e =>
      match e with
      | .dir m ch => if m == n then Entry.dir m (updateAt g ch rest) else .dir m ch
      | .file m c => .file m c) e) = entryName e := by
  cases e with
  | file m c => rfl
  | dir m ch => by_cases h : m = n <;> simp [entryName, h]

theorem updateAt_lookup_ne (g : Option String → String) :
    ∀ (q : List String) (es : List Entry) (p : List String), p ≠ q →
      ¬ properUnder p q → lookupE (updateAt g es q) p = lookupE es p := by
  intro q
  induction q with
  | nil => intro es p _ _; rfl
  | cons n q' ih =>
    intro es p hne hpu
    cases q' with
    | nil =>
      cases p with
      | nil => simp [lookupE]
      | cons m p' =>
        cases p' with
        | nil =>
          have hmn : m ≠ n := fun h => hne (by rw [h])
          simp only [updateAt, lookupE]
          exact childUpdate_find?_ne hmn
        | cons m2 p'' =>
          simp only [updateAt, lookupE]
          by_cases hmn : m = n
          · subst hmn
            rw [childUpdate_find?_eq]
            cases hf : es.find? (fun e => entryName e == m) with
            | none => simp
            | some e =>
              cases e with
              | file mm oc => simp
              | dir mm ch => simp
          · rw [childUpdate_find?_ne hmn]
    | cons n2 q'' =>
      cases p with
      | nil => simp [lookupE]
      | cons m p' =>
        simp only [updateAt]
        cases p' with
        | nil =>
          have hmn : m ≠ n := by
            intro h
            exact hpu ⟨n2 :: q'', by simp, by simp [h]⟩
          simp only [lookupE]
          rw [find?_map_namePres _ (entryName_updateMap g n (n2 :: q''))]
          cases hf : es.find? (fun e => entryName e == m) with
          | none => simp
          | some e =>
            have hpe := List.find?_some hf
            cases e with
            | file mm oc => simp
            | dir mm ch =>
              have hmm : mm = m := by simpa [entryName] using hpe
              have : ¬ (mm = n) := by rw [hmm]; exact hmn
              simp [this]
        | cons m2 p'' =>
          simp only [lookupE]
          rw [find?_map_namePres _ (entryName_updateMap g n (n2 :: q''))]
          cases hf : es.find? (fun e => entryName e == m) with
          | none => simp
          | some e =>
            have hpe := List.find?_some hf
            cases e with
            | file mm oc => simp
            | dir mm ch =>
              have hmm : mm = m := by simpa [entryName] using hpe
              by_cases hmn : m = n
              · have hmm' : (mm == n) = true := by simp [hmm, hmn]
                simp only [Option.map_some', hmm', if_true]
                have hne' : m2 :: p'' ≠ n2 :: q'' := by
                  intro h
                  exact hne (by rw [hmn, h])
                have hpu' : ¬ properUnder (m2 :: p'') (n2 :: q'') := by
                  rintro ⟨t, ht, hteq⟩
                  exact hpu ⟨t, ht, by rw [hmn, hteq]; rfl⟩
                exact ih ch (m2 :: p'') hne' hpu'
              · simp [hmm, hmn]

theorem updateAt_cons_cons (g : Option String → String) (es : List Entry)
    (n : String) (rest : List String) (h : rest ≠ []) :
    updateAt g es (n :: rest) = es.map (fun e =>
      match e with
      | .dir m ch => if m == n then Entry.dir m (updateAt g ch rest) else .dir m ch
      | .file m c => .file m c) := by
  cases rest with
  | nil => exact absurd rfl h
  | cons a t => simp [updateAt]

theorem lookupE_cons_cons (es : List Entry) (n : String) (rest : List String)
    (h : rest ≠ []) :
    lookupE es (n :: rest)
      = match es.find? (fun e => entryName e == n) with
        | some (.dir _ ch) => lookupE ch rest
        | _ => none := by
  cases rest with
  | nil => exact absurd rfl h
  | cons a t => simp [lookupE]

theorem updateAt_isDir (g : Option String → String) :
    ∀ (q : List String) (es : List Entry) (p : List String),
      isDir (updateAt g es q) p = isDir es p := by
  intro q
  induction q with
  | nil => intro es p; rfl
  | cons n q' ih =>
    intro es p
    cases q' with
    | nil =>
      cases p with
      | nil => simp [isDir]
      | cons m p' =>
        simp only [updateAt, isDir]
        cases p' with
        | nil =>
          simp only [lookupE]
          by_cases hmn : m = n
          · subst hmn
            rw [childUpdate_find?_eq]
            cases hf : es.find? (fun e => entryName e == m) with
            | none => simp
            | some e => cases e with
              | file mm oc => simp
              | dir mm ch => simp
          · rw [childUpdate_find?_ne hmn]
        | cons m2 p'' =>
          simp only [lookupE]
          by_cases hmn : m = n
          · subst hmn
            rw [childUpdate_find?_eq]
            cases hf : es.find? (fun e => entryName e == m) with
            | none => simp
            | some e => cases e with
              | file mm oc => simp
              | dir mm ch => simp
          · rw [childUpdate_find?_ne hmn]
    | cons n2 q'' =>
      cases p with
      | nil => simp [isDir]
      | cons m p' =>
        simp only [updateAt, isDir]
        cases p' with
        | nil =>
          simp only [lookupE]
          rw [find?_map_namePres _ (entryName_updateMap g n (n2 :: q''))]
          cases hf : es.find? (fun e => entryName e == m) with
          | none => simp
          | some e =>
            cases e with
            | file mm oc => simp
            | dir mm ch => by_cases hmm : mm = n <;> simp [hmm]
        | cons m2 p'' =>
          simp only [lookupE]
          rw [find?_map_namePres _ (entryName_updateMap g n (n2 :: q''))]
          cases hf : es.find? (fun e => entryName e == m) with
          | none => simp
          | some e =>
            cases e with
            | file mm oc => simp
            | dir mm ch =>
              by_cases hmm : mm = n
              · have := ih ch (m2 :: p'')
                simp only [isDir] at this
                simp [hmm, this]
              · simp [hmm]

theorem updateAt_lookup_fresh (g : Option String → String) :
    ∀ (q' : List String) (es ch : List Entry) (n : String),
      childrenAt es q' = some ch → ((ch.map entryName).contains n) = false →
      lookupE (updateAt g es (q' ++ [n])) (q' ++ [n]) = some (.file n (g none)) := by
  intro q'
  induction q' with
  | nil =>
    intro es ch n hch hfree
    have hes : ch = es := by simpa [childrenAt] using hch.symm
    subst hes
    simp only [List.nil_append, updateAt, lookupE]
    rw [childUpdate_find?_eq]
    rw [find?_name_of_contains_eq_false hfree]
  | cons m q'' ih =>
    intro es ch n hch hfree
    simp only [childrenAt] at hch
    cases hf : es.find? (fun e => entryName e == m) with
    | none => rw [hf] at hch; simp at hch
    | some e =>
      rw [hf] at hch
      cases e with
      | file mm oc => simp at hch
      | dir mm ch0 =>
        have hpe := List.find?_some hf
        have hmm : mm = m := by simpa [entryName] using hpe
        have hrest : q'' ++ [n] ≠ [] := by simp
        rw [List.cons_append, updateAt_cons_cons g es m _ hrest,
          lookupE_cons_cons _ _ _ hrest]
        rw [find?_map_namePres _ (entryName_updateMap g m (q'' ++ [n]))]
        rw [hf]
        simp only [Option.map_some', hmm, beq_self_eq_true, if_true]
        exact ih ch0 ch n hch hfree

theorem updateAt_lookup_file (g : Option String → String) :
    ∀ (q : List String) (es : List Entry) (fn oc : String),
      lookupE es q = some (.file fn oc) →
      lookupE (updateAt g es q) q = some (.file fn (g (some oc))) := by
  intro q
  induction q with
  | nil => intro es fn oc h; simp [lookupE] at h
  | cons n q' ih =>
    intro es fn oc h
    cases q' with
    | nil =>
      simp only [lookupE] at h
      have hpe := List.find?_some h
      have hfn : fn = n := by simpa [entryName] using hpe
      simp only [updateAt, lookupE]
      rw [childUpdate_find?_eq, h]
    | cons n2 q'' =>
      have hrest : n2 :: q'' ≠ [] := by simp
      rw [lookupE_cons_cons _ _ _ hrest] at h
      cases hf : es.find? (fun e => entryName e == n) with
      | none => rw [hf] at h; simp at h
      | some e =>
        rw [hf] at h
        cases e with
        | file mm oc2 => simp at h
        | dir mm ch =>
          have hpe := List.find?_some hf
          have hmm : mm = n := by simpa [entryName] using hpe
          rw [updateAt_cons_cons g es n _ hrest, lookupE_cons_cons _ _ _ hrest]
          rw [find?_map_namePres _ (entryName_updateMap g n (n2 :: q'')), hf]
          simp only [Option.map_some', hmm, beq_self_eq_true, if_true]
          exact ih ch fn oc h

theorem lookupE_concat :
    ∀ (q' : List String) (es : List Entry) (n : String),
      lookupE es (q' ++ [n])
        = (childrenAt es q').bind (fun ch => ch.find? (fun e => entryName e == n)) := by
  intro q'
  induction q' with
  | nil => intro es n; simp [lookupE, childrenAt]
  | cons m q'' ih =>
    intro es n
    have hrest : q'' ++ [n] ≠ [] := by simp
    rw [List.cons_append, lookupE_cons_cons _ _ _ hrest]
    simp only [childrenAt]
    cases hf : es.find? (fun e => entryName e == m) with
    | none => simp
    | some e =>
      cases e with
      | file mm oc => simp
      | dir mm ch => simp [ih ch n]

theorem lookupE_dir_childrenAt :
    ∀ (p : List String) (es ch : List Entry) (m : String),
      lookupE es p = some (.dir m ch) → childrenAt es p = some ch := by
  intro p
  induction p with
  | nil => intro es ch m h; simp [lookupE] at h
  | cons n p' ih =>
    intro es ch m h
    cases p' with
    | nil =>
      simp only [lookupE] at h
      simp [childrenAt, h]
    | cons n2 p'' =>
      have hrest : n2 :: p'' ≠ [] := by simp
      rw [lookupE_cons_cons _ _ _ hrest] at h
      simp only [childrenAt]
      cases hf : es.find? (fun e => entryName e == n) with
      | none => rw [hf] at h; simp at h
      | some e =>
        rw [hf] at h
        cases e with
        | file mm oc => simp at h
        | dir mm ch0 => exact ih ch0 ch m h

theorem isDir_childrenAt {es : List Entry} {p : List String}
    (h : isDir es p = true) : ∃ ch, childrenAt es p = some ch := by
  cases p with
  | nil => exact ⟨es, rfl⟩
  | cons n p' =>
    simp only [isDir] at h
    cases hl : lookupE es (n :: p') with
    | none => rw [hl] at h; simp at h
    | some e =>
      cases e with
      | file mm oc => rw [hl] at h; simp at h
      | dir mm ch => exact ⟨ch, lookupE_dir_childrenAt _ es ch mm hl⟩

theorem probeName_inj {nm ext : String} {i j : Nat}
    (h : probeName nm ext i = probeName nm ext j) : i = j := by
  unfold probeName at h
  have hd := congrArg String.data h
  simp only [String.data_append] at hd
  have h1 := List.append_cancel_right hd
  have h2 := List.append_cancel_left h1
  exact natRepr_inj (String.ext h2)

theorem probe_exists_free (existing : List String) (nm ext : String) (i : Nat) :
    ∃ k, k < existing.length + 1 ∧
      existing.contains (probeName nm ext (i + k)) = false := by
  by_contra hall
  push_neg at hall
  have hmem : ∀ k : Fin (existing.length + 1),
      (fun k : Fin (existing.length + 1) => probeName nm ext (i + k)) k
        ∈ existing.toFinset := by
    intro k
    have hk := hall k k.isLt
    have hne : existing.contains (probeName nm ext (i + k)) = true := by
      cases hc : existing.contains (probeName nm ext (i + k)) with
      | false => exact absurd hc hk
      | true => rfl
    exact List.mem_toFinset.mpr (by simpa [List.contains] using hne)
  have hinj : (↑(Finset.univ : Finset (Fin (existing.length + 1))) :
      Set (Fin (existing.length + 1))).InjOn
      (fun k : Fin (existing.length + 1) => probeName nm ext (i + k)) := by
    intro a _ b _ hab
    have := probeName_inj hab
    exact Fin.ext (by omega)
  have hcard : (Finset.univ : Finset (Fin (existing.length + 1))).card
      ≤ existing.toFinset.card :=
    Finset.card_le_card_of_injOn _ (fun k _ => hmem k) hinj
  have h1 : (Finset.univ : Finset (Fin (existing.length + 1))).card
      = existing.length + 1 := by simp
  have h2 : existing.toFinset.card ≤ existing.length :=
    List.toFinset_card_le existing
  omega

theorem probeAux_spec (existing : List String) (nm ext : String) :
    ∀ (fuel i : Nat),
      (∃ k, k < fuel ∧ existing.contains (probeName nm ext (i + k)) = false) →
      ∃ j, probeAux existing nm ext fuel i = some (probeName nm ext (i + j)) ∧
        existing.contains (probeName nm ext (i + j)) = false ∧
        ∀ k, k < j → existing.contains (probeName nm ext (i + k)) = true := by
  intro fuel
  induction fuel with
  | zero => intro i h; obtain ⟨k, hk, _⟩ := h; omega
  | succ f ih =>
    intro i h
    cases hc : existing.contains (probeName nm ext i) with
    | false =>
      refine ⟨0, ?_, ?_, ?_⟩
      · rw [Nat.add_zero]
        unfold probeAux
        rw [hc]
        simp
      · simpa using hc
      · intro k hk; omega
    | true =>
      have h' : ∃ k, k < f ∧
          existing.contains (probeName nm ext (i + 1 + k)) = false := by
        obtain ⟨k, hk, hfree⟩ := h
        cases k with
        | zero =>
          rw [Nat.add_zero, hc] at hfree
          cases hfree
        | succ k' =>
          refine ⟨k', by omega, ?_⟩
          have heq : i + 1 + k' = i + (k' + 1) := by omega
          rw [heq]; exact hfree
      obtain ⟨j, hres, hfree, hmin⟩ := ih (i + 1) h'
      refine ⟨j + 1, ?_, ?_, ?_⟩
      · simp only [probeAux, hc, if_true]
        rw [hres]
        congr 2
        omega
      · have heq : i + (j + 1) = i + 1 + j := by omega
        rw [heq]; exact hfree
      · intro k hk
        cases k with
        | zero => simpa using hc
        | succ k' =>
          have heq : i + (k' + 1) = i + 1 + k' := by omega
          rw [heq]
          exact hmin k' (by omega)

/-- The names already present in a folder's listing (what `os.path.exists`
consults for each probed candidate path inside that folder). -/
def existingNames (vault : List Entry) (folder : List String) : List String :=
  ((childrenAt vault folder).getD []).map entryName

theorem guf_cases (vault : List Entry) (folder : List String)
    (baseName : String) :
    ((existingNames vault folder).contains baseName = false ∧
      get_unique_filename vault folder baseName = baseName) ∨
    ((existingNames vault folder).contains baseName = true ∧
      ∃ j, 1 ≤ j ∧
        get_unique_filename vault folder baseName
          = probeName (splitext baseName).1 (splitext baseName).2 j ∧
        (existingNames vault folder).contains
          (probeName (splitext baseName).1 (splitext baseName).2 j) = false ∧
        ∀ k, 1 ≤ k → k < j →
          (existingNames vault folder).contains
            (probeName (splitext baseName).1 (splitext baseName).2 k) = true) := by
  cases hc : (existingNames vault folder).contains baseName with
  | false =>
    left
    refine ⟨rfl, ?_⟩
    show (if (existingNames vault folder).contains baseName = true then
        (probeAux (existingNames vault folder) (splitext baseName).1
          (splitext baseName).2 ((existingNames vault folder).length + 1)
          1).getD baseName
      else baseName) = baseName
    rw [hc]
    simp
  | true =>
    right
    refine ⟨rfl, ?_⟩
    obtain ⟨k, hk, hfree⟩ := probe_exists_free (existingNames vault folder)
      (splitext baseName).1 (splitext baseName).2 1
    obtain ⟨j, hres, hjfree, hjmin⟩ := probeAux_spec (existingNames vault folder)
      (splitext baseName).1 (splitext baseName).2
      ((existingNames vault folder).length + 1) 1 ⟨k, hk, hfree⟩
    refine ⟨1 + j, by omega, ?_, hjfree, ?_⟩
    · show (if (existingNames vault folder).contains baseName = true then
          (probeAux (existingNames vault folder) (splitext baseName).1
            (splitext baseName).2 ((existingNames vault folder).length + 1)
            1).getD baseName
        else baseName)
        = probeName (splitext baseName).1 (splitext baseName).2 (1 + j)
      rw [hc]
      simp only [if_true]
      rw [hres]
      rfl
    · intro m h1m hmj
      have : m = 1 + (m - 1) := by omega
      rw [this]
      exact hjmin (m - 1) (by omega)

theorem guf_free (vault : List Entry) (folder : List String)
    (baseName : String) :
    (existingNames vault folder).contains
      (get_unique_filename vault folder baseName) = false := by
  rcases guf_cases vault folder baseName with ⟨hc, he⟩ | ⟨hc, j, _, he, hfree, _⟩
  · rw [he]; exact hc
  · rw [he]; exact hfree

theorem wf_find?_dir :
    ∀ {es : List Entry} {n : String} {ch : List Entry},
      wfEntries es = true → Entry.dir n ch ∈ es →
      es.find? (fun e => entryName e == n) = some (.dir n ch) := by
  intro es
  induction es with
  | nil => intro n ch _ hm; simp at hm
  | cons e0 rest ih =>
    intro n ch hwf hm
    rcases List.mem_cons.mp hm with he | he
    · subst he
      simp [List.find?, entryName]
    · cases e0 with
      | file m c =>
        simp only [wfEntries, Bool.and_eq_true] at hwf
        have hmn : m ≠ n := by
          intro h
          subst h
          have hmm : m ∈ rest.map entryName := List.mem_map.mpr ⟨_, he, rfl⟩
          have hnc := hwf.1
          simp only [Bool.not_eq_true', List.contains, List.elem_eq_mem,
            decide_eq_false_iff_not] at hnc
          exact hnc hmm
        rw [List.find?_cons_of_neg _ (by simp [entryName, hmn])]
        exact ih hwf.2 he
      | dir m ch0 =>
        simp only [wfEntries, Bool.and_eq_true] at hwf
        have hmn : m ≠ n := by
          intro h
          subst h
          have hmm : m ∈ rest.map entryName := List.mem_map.mpr ⟨_, he, rfl⟩
          have hnc := hwf.1.1
          simp only [Bool.not_eq_true', List.contains, List.elem_eq_mem,
            decide_eq_false_iff_not] at hnc
          exact hnc hmm
        rw [List.find?_cons_of_neg _ (by simp [entryName, hmn])]
        exact ih hwf.2 he

theorem wf_children :
    ∀ {es : List Entry} {n : String} {ch : List Entry},
      wfEntries es = true → Entry.dir n ch ∈ es → wfEntries ch = true := by
  intro es
  induction es with
  | nil => intro n ch _ hm; simp at hm
  | cons e0 rest ih =>
    intro n ch hwf hm
    rcases List.mem_cons.mp hm with he | he
    · subst he
      simp only [wfEntries, Bool.and_eq_true] at hwf
      exact hwf.1.2
    · cases e0 with
      | file m c =>
        simp only [wfEntries, Bool.and_eq_true] at hwf
        exact ih hwf.2 he
      | dir m ch0 =>
        simp only [wfEntries, Bool.and_eq_true] at hwf
        exact ih hwf.2 he

theorem mem_dirChildPaths {pre p : List String} {es : List Entry}
    (h : p ∈ dirChildPaths pre es) :
    ∃ n ch, Entry.dir n ch ∈ es ∧ p = pre ++ [n] := by
  unfold dirChildPaths at h
  obtain ⟨e, he, hsome⟩ := List.mem_filterMap.mp h
  cases e with
  | file m c => simp at hsome
  | dir m ch =>
    refine ⟨m, ch, he, ?_⟩
    simpa using hsome.symm

theorem mem_walkChecksKids :
    ∀ {es : List Entry} {pre p : List String},
      p ∈ walkChecksKids pre es →
      ∃ n ch, Entry.dir n ch ∈ es ∧ p ∈ walkChecks (pre ++ [n]) ch := by
  intro es
  induction es with
  | nil => intro pre p h; simp [walkChecksKids] at h
  | cons e0 rest ih =>
    intro pre p h
    cases e0 with
    | file m c =>
      rw [show walkChecksKids pre (Entry.file m c :: rest)
        = walkChecksKids pre rest from by simp [walkChecksKids]] at h
      obtain ⟨n, ch, hm, hw⟩ := ih h
      exact ⟨n, ch, List.mem_cons_of_mem _ hm, hw⟩
    | dir m ch0 =>
      rw [show walkChecksKids pre (Entry.dir m ch0 :: rest)
        = (dirChildPaths (pre ++ [m]) ch0 ++ walkChecksKids (pre ++ [m]) ch0)
          ++ walkChecksKids pre rest from by simp [walkChecksKids]] at h
      rcases List.mem_append.mp h with h1 | h2
      · exact ⟨m, ch0, List.mem_cons_self _ _, h1⟩
      · obtain ⟨n, ch, hm, hw⟩ := ih h2
        exact ⟨n, ch, List.mem_cons_of_mem _ hm, hw⟩

theorem isDir_cons_nil {es : List Entry} {n m : String} {ch : List Entry}
    (hf : es.find? (fun e => entryName e == n) = some (.dir m ch)) :
    isDir es [n] = true := by
  simp [isDir, lookupE, hf]

theorem isDir_cons_cons {es : List Entry} {n m : String} {ch : List Entry}
    {sfx : List String}
    (hf : es.find? (fun e => entryName e == n) = some (.dir m ch))
    (hne : sfx ≠ []) :
    isDir es (n :: sfx) = isDir ch sfx := by
  cases sfx with
  | nil => exact absurd rfl hne
  | cons a t =>
    simp only [isDir]
    rw [lookupE_cons_cons _ _ _ (by simp), hf]

theorem walkChecks_mem_isDir (es : List Entry) (pre p : List String)
    (hwf : wfEntries es = true) (hm : p ∈ walkChecks pre es) :
    ∃ sfx, p = pre ++ sfx ∧ sfx ≠ [] ∧ isDir es sfx = true := by
  unfold walkChecks at hm
  rcases List.mem_append.mp hm with h1 | h2
  · obtain ⟨n, ch, hmem, hp⟩ := mem_dirChildPaths h1
    exact ⟨[n], hp, by simp, isDir_cons_nil (wf_find?_dir hwf hmem)⟩
  · obtain ⟨n, ch, hmem, hw⟩ := mem_walkChecksKids h2
    have hwf' : wfEntries ch = true := wf_children hwf hmem
    obtain ⟨sfx', hp, hne, hdir⟩ := walkChecks_mem_isDir ch (pre ++ [n]) p hwf' hw
    refine ⟨n :: sfx', by simp [hp], by simp, ?_⟩
    rw [isDir_cons_cons (wf_find?_dir hwf hmem) hne]
    exact hdir
termination_by sizeOf es
decreasing_by
  have hlt := List.sizeOf_lt_of_mem hmem
  simp only [Entry.dir.sizeOf_spec] at hlt
  omega

theorem resolve_directory_isDir {vault : List Entry} {loc f : List String}
    (hwf : wfEntries vault = true) (hne : loc ≠ [])
    (hres : resolve_directory vault loc = some f) :
    isDir vault f = true ∧ f ≠ [] := by
  unfold resolve_directory at hres
  by_cases hd : isDir vault loc = true
  · rw [hd] at hres
    simp at hres
    subst hres
    exact ⟨hd, hne⟩
  · have hd' : isDir vault loc = false := by
      cases h : isDir vault loc with
      | false => rfl
      | true => exact absurd h hd
    rw [hd'] at hres
    simp only [Bool.false_eq_true, if_false] at hres
    unfold find_folder at hres
    have hmem := List.mem_of_find?_eq_some hres
    obtain ⟨sfx, hp, hsne, hdir⟩ := walkChecks_mem_isDir vault [] f hwf hmem
    simp only [List.nil_append] at hp
    subst hp
    exact ⟨hdir, hsne⟩

/-- Claim C10: a note-generation request whose `location` is empty writes
nothing: the generated note text is returned directly and the vault is left
unchanged. -/
theorem c10_empty_location_writes_nothing (vault : List Entry)
    (noteContent followup noteTitle0 : String) :
    handle_note_generation vault noteContent followup noteTitle0 []
      = (noteContent, vault) := by
  simp [handle_note_generation]

/-- Claim C5: a folder path that names an existing directory (exactly,
case-sensitively) is returned unchanged by the Directory Resolver (without
reaching the fuzzy search, whose observable effect would be a possibly
different result). -/
theorem c5_exact_directory_resolved_unchanged (vault : List Entry)
    (loc : List String) (h : isDir vault loc = true) :
    resolve_directory vault loc = some loc := by
  unfold resolve_directory
  rw [h]
  simp

def vaultC5 : List Entry := [.dir "Projects" [.dir "Lean" [], .file "x.md" "x"]]

theorem c5_witness :
    isDir vaultC5 ["Projects", "Lean"] = true ∧
    resolve_directory vaultC5 ["Projects", "Lean"] = some ["Projects", "Lean"] :=
  ⟨by decide, c5_exact_directory_resolved_unchanged vaultC5 ["Projects", "Lean"]
    (by decide)⟩

/-- Claim C3: when the location is nonempty and the destination folder cannot
be resolved, note generation returns the folder-not-found message and the
vault is unchanged (nothing is written). -/
theorem c3_folder_not_found_writes_nothing (vault : List Entry)
    (noteContent followup noteTitle0 : String) (loc : List String)
    (hne : loc ≠ []) (hres : resolve_directory vault loc = none) :
    handle_note_generation vault noteContent followup noteTitle0 loc
      = ("Folder '" ++ renderPath loc ++ "' not found in vault.", vault) := by
  cases loc with
  | nil => exact absurd rfl hne
  | cons a t' => simp [handle_note_generation, hres]

def vaultC3 : List Entry := [.dir "notes" [.file "a.md" "a"]]

theorem c3_witness :
    (["missing"] : List String) ≠ [] ∧
    resolve_directory vaultC3 ["missing"] = none ∧
    handle_note_generation vaultC3 "content" "" "t" ["missing"]
      = ("Folder 'missing' not found in vault.", vaultC3) := by
  have hres : resolve_directory vaultC3 ["missing"] = none := by
    simp [resolve_directory, find_folder, walkChecks, walkChecksKids,
      dirChildPaths, vaultC3, isDir, lookupE, entryName, pyIn, pyLower,
      charsSub, charsStart]
  exact ⟨by simp, hres,
    c3_folder_not_found_writes_nothing vaultC3 "content" "" "t" ["missing"]
      (by simp) hres⟩

/-- Claim C2: the Unique Filename Generator never returns a name already
present in the folder; it returns the base name when free, and otherwise the
first free `name_j.ext` probing `j = 1, 2, ...` in increasing order. -/
theorem c2_unique_filename_spec (vault : List Entry) (folder : List String)
    (baseName : String) :
    (existingNames vault folder).contains
        (get_unique_filename vault folder baseName) = false ∧
    ((existingNames vault folder).contains baseName = false →
      get_unique_filename vault folder baseName = baseName) ∧
    ((existingNames vault folder).contains baseName = true →
      ∃ j, 1 ≤ j ∧
        get_unique_filename vault folder baseName
          = probeName (splitext baseName).1 (splitext baseName).2 j ∧
        ∀ k, 1 ≤ k → k < j →
          (existingNames vault folder).contains
            (probeName (splitext baseName).1 (splitext baseName).2 k) = true) := by
  refine ⟨guf_free vault folder baseName, ?_, ?_⟩
  · intro hc
    rcases guf_cases vault folder baseName with ⟨_, he⟩ | ⟨hc', _⟩
    · exact he
    · rw [hc] at hc'; cases hc'
  · intro hc
    rcases guf_cases vault folder baseName with ⟨hc', _⟩ | ⟨_, j, hj, he, _, hmin⟩
    · rw [hc] at hc'; cases hc'
    · exact ⟨j, hj, he, hmin⟩

def vaultC2 : List Entry :=
  [.dir "notes" [.file "note.md" "a", .file "note_1.md" "b"]]

theorem c2_witness :
    (existingNames vaultC2 ["notes"]).contains
        (get_unique_filename vaultC2 ["notes"] "note.md") = false ∧
    ((existingNames vaultC2 ["notes"]).contains "note.md" = false →
      get_unique_filename vaultC2 ["notes"] "note.md" = "note.md") ∧
    ((existingNames vaultC2 ["notes"]).contains "note.md" = true →
      ∃ j, 1 ≤ j ∧
        get_unique_filename vaultC2 ["notes"] "note.md"
          = probeName (splitext "note.md").1 (splitext "note.md").2 j ∧
        ∀ k, 1 ≤ k → k < j →
          (existingNames vaultC2 ["notes"]).contains
            (probeName (splitext "note.md").1 (splitext "note.md").2 k) = true) :=
  c2_unique_filename_spec vaultC2 ["notes"] "note.md"

/-- Claim C8: when the folder holds no file matching the
`<major>.<minor-1>` pattern (case-insensitive, `.md`), the backward-linking
step reports the informational no-previous-note fragment and modifies no file
(the vault is returned unchanged). -/
theorem c8_no_previous_note (vault : List Entry) (folder : List String)
    (noteTitle ma mi : String) (ls : List Entry)
    (hch : childrenAt vault folder = some ls)
    (hmv : 1 ≤ digitsToNat mi)
    (hnone : ∀ e ∈ ls,
      linkMatch (pyLower (ma ++ "." ++ natRepr (digitsToNat mi - 1))) e = false) :
    handle_note_linking vault folder noteTitle ma mi
      = (" No previous note found to link from.", vault) ∧
    pyIn "no previous note found"
      (pyLower (handle_note_linking vault folder noteTitle ma mi).1) = true := by
  have hfind : ls.find?
      (linkMatch (pyLower (ma ++ "." ++ natRepr (digitsToNat mi - 1)))) = none := by
    rw [List.find?_eq_none]
    intro e he hpe
    rw [hnone e he] at hpe
    cases hpe
  have hmain : handle_note_linking vault folder noteTitle ma mi
      = (" No previous note found to link from.", vault) := by
    simp [handle_note_linking, hmv, hch, hfind]
  refine ⟨hmain, ?_⟩
  rw [hmain]
  show pyIn "no previous note found"
    (pyLower " No previous note found to link from.") = true
  decide

def vaultC8 : List Entry := [.dir "notes" [.file "7.9 Other.md" "x"]]

theorem c8_witness :
    childrenAt vaultC8 ["notes"] = some [.file "7.9 Other.md" "x"] ∧
    1 ≤ digitsToNat "2" ∧
    (∀ e ∈ [Entry.file "7.9 Other.md" "x"],
      linkMatch (pyLower ("8" ++ "." ++ natRepr (digitsToNat "2" - 1))) e = false) ∧
    handle_note_linking vaultC8 ["notes"] "8.2 Something.md" "8" "2"
      = (" No previous note found to link from.", vaultC8) := by
  refine ⟨rfl, by decide, by decide, ?_⟩
  exact (c8_no_previous_note vaultC8 ["notes"] "8.2 Something.md" "8" "2"
    [.file "7.9 Other.md" "x"] rfl (by decide) (by decide)).1

def vaultC1 : List Entry := [.dir "notes" [.file "8.1 Prior.md" "P"]]

/-- Claim C1 (code bug): writing `8.2 Command` next to `8.1 Prior.md` appends
`\n\n[[8.2 Comman]]` — `rstrip('.md')` strips the character set
`{'.', 'm', 'd'}`, eating the final `d` of `Command` — instead of the
documented `\n\n[[8.2 Command]]`, so the produced wiki-link does not name the
new note. -/
theorem c1_backlink_rstrip_eval :
    readFile (handle_note_generation vaultC1 "C" "" "8.2 Command" ["notes"]).2
        ["notes", "8.1 Prior.md"] = some "P\n\n[[8.2 Comman]]" ∧
    some "P\n\n[[8.2 Comman]]"
      ≠ some ("P" ++ "\n\n[[" ++ "8.2 Command" ++ "]]") := by
  exact ⟨rfl, by decide⟩

/-- Claim C6: when the requested path is not an existing directory, the
resolver returns the first directory in traversal order whose name contains
the request's last component case-insensitively, and signals not-found when no
directory name contains it. -/
theorem c6_fuzzy_resolution (vault : List Entry) (loc : List String)
    (hwf : wfEntries vault = true) (hx : isDir vault loc = false) :
    (∀ r, resolve_directory vault loc = some r →
      isDir vault r = true ∧
      pyIn (pyLower (loc.getLastD "")) (pyLower (r.getLastD "")) = true ∧
      ∃ l1 l2, walkChecks [] vault = l1 ++ r :: l2 ∧
        ∀ q ∈ l1,
          pyIn (pyLower (loc.getLastD "")) (pyLower (q.getLastD "")) = false) ∧
    (resolve_directory vault loc = none →
      ∀ p ∈ walkChecks [] vault,
        pyIn (pyLower (loc.getLastD "")) (pyLower (p.getLastD "")) = false) := by
  have hru : resolve_directory vault loc
      = find_folder vault (loc.getLastD "") := by
    unfold resolve_directory
    rw [hx]
    simp
  constructor
  · intro r hr
    rw [hru] at hr
    unfold find_folder at hr
    obtain ⟨hpr, l1, l2, hsplit, hprev⟩ := List.find?_eq_some.mp hr
    have hmem : r ∈ walkChecks [] vault := by
      rw [hsplit]
      simp
    obtain ⟨sfx, hp, hsne, hdir⟩ := walkChecks_mem_isDir vault [] r hwf hmem
    simp only [List.nil_append] at hp
    refine ⟨hp ▸ hdir, hpr, l1, l2, hsplit, ?_⟩
    intro q hq
    have := hprev q hq
    simpa using this
  · intro hr p hp
    rw [hru] at hr
    unfold find_folder at hr
    exact Bool.not_eq_true _ ▸ (by
      have := List.find?_eq_none.mp hr p hp
      simpa using this)

def vaultC6 : List Entry :=
  [.file "top.md" "t", .dir "Work" [.dir "Algos" []], .dir "Other" []]

theorem c6_witness :
    wfEntries vaultC6 = true ∧ isDir vaultC6 ["algo"] = false ∧
    resolve_directory vaultC6 ["algo"] = some ["Work", "Algos"] ∧
    isDir vaultC6 ["Work", "Algos"] = true ∧
    pyIn (pyLower ((["algo"] : List String).getLastD ""))
      (pyLower ((["Work", "Algos"] : List String).getLastD "")) = true := by
  have hwf : wfEntries vaultC6 = true := by
    simp [vaultC6, wfEntries, entryName]
  have hx : isDir vaultC6 ["algo"] = false := by decide
  have hres : resolve_directory vaultC6 ["algo"] = some ["Work", "Algos"] := by
    simp [resolve_directory, find_folder, walkChecks, walkChecksKids,
      dirChildPaths, vaultC6, isDir, lookupE, entryName, pyIn, pyLower,
      charsSub, charsStart]
  have happ := (c6_fuzzy_resolution vaultC6 ["algo"] hwf hx).1
    ["Work", "Algos"] hres
  exact ⟨hwf, hx, hres, happ.1, happ.2.1⟩

theorem not_properUnder_of_length {p q : List String}
    (h : q.length ≤ p.length) : ¬ properUnder p q := by
  rintro ⟨t, ht, hq⟩
  have : q.length = p.length + t.length := by rw [hq]; simp
  have : 1 ≤ t.length := by
    cases t with
    | nil => exact absurd rfl ht
    | cons a t' => simp
  omega

theorem concat_ne_of_last_ne {folder : List String} {a b : String}
    (h : a ≠ b) : folder ++ [a] ≠ folder ++ [b] := by
  intro he
  exact h (by simpa using List.append_cancel_left he)

theorem writeList_lookup_ne {es : List Entry} {q p : List String} {c : String}
    (h1 : p ≠ q) (h2 : ¬ properUnder p q) :
    lookupE (writeList es q c) p = lookupE es p :=
  updateAt_lookup_ne _ q es p h1 h2

theorem appendList_lookup_ne {es : List Entry} {q p : List String} {c : String}
    (h1 : p ≠ q) (h2 : ¬ properUnder p q) :
    lookupE (appendList es q c) p = lookupE es p :=
  updateAt_lookup_ne _ q es p h1 h2

theorem writeList_isDir (es : List Entry) (q p : List String) (c : String) :
    isDir (writeList es q c) p = isDir es p :=
  updateAt_isDir _ q es p

theorem appendList_isDir (es : List Entry) (q p : List String) (c : String) :
    isDir (appendList es q c) p = isDir es p :=
  updateAt_isDir _ q es p

theorem writeList_lookup_fresh {es ch : List Entry} {q' : List String}
    {n c : String} (hch : childrenAt es q' = some ch)
    (hfree : ((ch.map entryName).contains n) = false) :
    lookupE (writeList es (q' ++ [n]) c) (q' ++ [n]) = some (.file n c) :=
  updateAt_lookup_fresh _ q' es ch n hch hfree

theorem appendList_lookup_file {es : List Entry} {q : List String}
    {fn oc c : String} (h : lookupE es q = some (.file fn oc)) :
    lookupE (appendList es q c) q = some (.file fn (oc ++ c)) := by
  have := updateAt_lookup_file (fun o => (o.getD "") ++ c) q es fn oc h
  simpa using this

def vaultC7x : List Entry := [.dir "n" [.file "cur.md" "X"]]

/-- Claim C7 counterexample: for followup title `"A .md"` the code appends
`\n\n[[A]]` (it trims whitespace around the extension-stripped title), not the
claimed `\n\n[[<followup title without extension>]]` = `\n\n[[A ]]`. -/
theorem c7_counterexample :
    readFile (handle_followup_note vaultC7x ["n"] "t.md" "A .md"
        ["n", "cur.md"]).2 ["n", "cur.md"] = some "X\n\n[[A]]" ∧
    readFile (handle_followup_note vaultC7x ["n"] "t.md" "A .md"
        ["n", "cur.md"]).2 ["n", "cur.md"]
      ≠ some ("X" ++ "\n\n[[" ++ "A " ++ "]]") := by
  exact ⟨rfl, by decide⟩

/-- Claim C7 (amended): supplying a followup creates a new file at a
unique-name variant of the followup title (extension ensured), whose content
begins with the level-1 heading over the extension-stripped title, and appends
`\n\n[[<followup title without extension, trimmed of surrounding
whitespace>]]` to the end of the just-written primary note. -/
theorem c7_followup_note_amended (vault : List Entry) (folder : List String)
    (noteTitle followup cn cold : String) (ch : List Entry)
    (hch : childrenAt vault folder = some ch)
    (hcur : ch.find? (fun e => entryName e == cn) = some (.file cn cold)) :
    (ch.map entryName).contains
        (get_unique_filename vault folder (followupTitleOf followup)) = false ∧
    readFile (handle_followup_note vault folder noteTitle followup
        (folder ++ [cn])).2
        (folder ++ [get_unique_filename vault folder (followupTitleOf followup)])
      = some ("# " ++ strDropRight (followupTitleOf followup) 3 ++ "\n\n") ∧
    readFile (handle_followup_note vault folder noteTitle followup
        (folder ++ [cn])).2 (folder ++ [cn])
      = some (cold ++ "\n\n[[" ++
          pyStrip (strDropRight (followupTitleOf followup) 3) ++ "]]") := by
  have hnames : existingNames vault folder = ch.map entryName := by
    unfold existingNames
    rw [hch]
    rfl
  have hfree : (ch.map entryName).contains
      (get_unique_filename vault folder (followupTitleOf followup)) = false := by
    rw [← hnames]
    exact guf_free vault folder (followupTitleOf followup)
  have hcnmem : cn ∈ ch.map entryName := by
    have hm := List.mem_of_find?_eq_some hcur
    exact List.mem_map.mpr ⟨_, hm, rfl⟩
  have hfn_ne : get_unique_filename vault folder (followupTitleOf followup)
      ≠ cn := by
    intro h
    rw [h] at hfree
    simp only [List.contains, List.elem_eq_mem, decide_eq_false_iff_not] at hfree
    exact hfree hcnmem
  have hcurlk : lookupE vault (folder ++ [cn]) = some (.file cn cold) := by
    rw [lookupE_concat, hch]
    simpa using hcur
  have hout : (handle_followup_note vault folder noteTitle followup
      (folder ++ [cn])).2
      = appendList
          (writeList vault
            (folder ++ [get_unique_filename vault folder (followupTitleOf followup)])
            ("# " ++ strDropRight (followupTitleOf followup) 3 ++ "\n\n"))
          (folder ++ [cn])
          ("\n\n[[" ++ pyStrip (strDropRight (followupTitleOf followup) 3) ++ "]]") := by
    simp [handle_followup_note]
  have hstub1 : lookupE
      (writeList vault
        (folder ++ [get_unique_filename vault folder (followupTitleOf followup)])
        ("# " ++ strDropRight (followupTitleOf followup) 3 ++ "\n\n"))
      (folder ++ [get_unique_filename vault folder (followupTitleOf followup)])
      = some (.file (get_unique_filename vault folder (followupTitleOf followup))
          ("# " ++ strDropRight (followupTitleOf followup) 3 ++ "\n\n")) :=
    writeList_lookup_fresh hch hfree
  have hne1 : folder ++ [get_unique_filename vault folder (followupTitleOf followup)]
      ≠ folder ++ [cn] := concat_ne_of_last_ne hfn_ne
  have hne2 : folder ++ [cn]
      ≠ folder ++ [get_unique_filename vault folder (followupTitleOf followup)] :=
    concat_ne_of_last_ne (fun h => hfn_ne h.symm)
  have hlen : (folder ++ [cn]).length
      ≤ (folder ++ [get_unique_filename vault folder (followupTitleOf followup)]).length := by
    simp
  have hlen' : (folder ++ [get_unique_filename vault folder (followupTitleOf followup)]).length
      ≤ (folder ++ [cn]).length := by
    simp
  refine ⟨hfree, ?_, ?_⟩
  · rw [hout]
    unfold readFile
    rw [appendList_lookup_ne hne1 (not_properUnder_of_length hlen)]
    rw [hstub1]
  · rw [hout]
    have hcur1 : lookupE
        (writeList vault
          (folder ++ [get_unique_filename vault folder (followupTitleOf followup)])
          ("# " ++ strDropRight (followupTitleOf followup) 3 ++ "\n\n"))
        (folder ++ [cn]) = some (.file cn cold) := by
      rw [writeList_lookup_ne hne2 (not_properUnder_of_length hlen')]
      exact hcurlk
    unfold readFile
    rw [appendList_lookup_file hcur1]
    simp [String.append_assoc]

def vaultC7w : List Entry := [.dir "k" [.file "cur.md" "Y"]]

theorem c7_witness :
    childrenAt vaultC7w ["k"] = some [.file "cur.md" "Y"] ∧
    ([Entry.file "cur.md" "Y"].find? (fun e => entryName e == "cur.md")
      = some (.file "cur.md" "Y")) ∧
    ((([Entry.file "cur.md" "Y"]).map entryName).contains
        (get_unique_filename vaultC7w ["k"]
          (followupTitleOf "[[8.4 Shell Sort]]")) = false ∧
      readFile (handle_followup_note vaultC7w ["k"] "t.md" "[[8.4 Shell Sort]]"
          (["k"] ++ ["cur.md"])).2
          (["k"] ++ [get_unique_filename vaultC7w ["k"]
            (followupTitleOf "[[8.4 Shell Sort]]")])
        = some ("# " ++ strDropRight (followupTitleOf "[[8.4 Shell Sort]]") 3
            ++ "\n\n") ∧
      readFile (handle_followup_note vaultC7w ["k"] "t.md" "[[8.4 Shell Sort]]"
          (["k"] ++ ["cur.md"])).2 (["k"] ++ ["cur.md"])
        = some ("Y" ++ "\n\n[[" ++
            pyStrip (strDropRight (followupTitleOf "[[8.4 Shell Sort]]") 3)
            ++ "]]")) :=
  ⟨rfl, rfl, c7_followup_note_amended vaultC7w ["k"] "t.md" "[[8.4 Shell Sort]]"
    "cur.md" "Y" [.file "cur.md" "Y"] rfl rfl⟩

/-- Whether the freshly saved note's own filename matches the
`<major>.<minor-1>` backlink pattern that `handle_note_linking` searches for
(possible with zero-padded minors, e.g. a title `8.01 ...` whose file starts,
case-insensitively, with `8.0`): then the backward-linking step can append a
self-link into the new note itself. -/
def selfLinkClash (noteTitle fname : String) : Bool :=
  match parseNumbering noteTitle with
  | some (ma, mi) =>
    if 1 ≤ digitsToNat mi then
      mdLinkTarget (pyLower (ma ++ "." ++ natRepr (digitsToNat mi - 1))) fname
    else false
  | none => false

theorem handle_note_linking_frame (vault : List Entry) (folder : List String)
    (noteTitle ma mi fn c : String)
    (hlk : lookupE vault (folder ++ [fn]) = some (.file fn c))
    (hnm : (if 1 ≤ digitsToNat mi then
        mdLinkTarget (pyLower (ma ++ "." ++ natRepr (digitsToNat mi - 1))) fn
      else false) = false) :
    lookupE (handle_note_linking vault folder noteTitle ma mi).2
        (folder ++ [fn]) = some (.file fn c) ∧
    ∀ p, isDir (handle_note_linking vault folder noteTitle ma mi).2 p
      = isDir vault p := by
  by_cases hmv : 1 ≤ digitsToNat mi
  · rw [if_pos hmv] at hnm
    cases hch : childrenAt vault folder with
    | none =>
      have h2 : (handle_note_linking vault folder noteTitle ma mi).2 = vault := by
        simp [handle_note_linking, hmv, hch]
      rw [h2]
      exact ⟨hlk, fun p => rfl⟩
    | some ls =>
      cases hf : ls.find? (linkMatch
          (pyLower (ma ++ "." ++ natRepr (digitsToNat mi - 1)))) with
      | none =>
        have h2 : (handle_note_linking vault folder noteTitle ma mi).2 = vault := by
          simp [handle_note_linking, hmv, hch, hf]
        rw [h2]
        exact ⟨hlk, fun p => rfl⟩
      | some e =>
        cases e with
        | dir g gch =>
          have h2 : (handle_note_linking vault folder noteTitle ma mi).2 = vault := by
            simp [handle_note_linking, hmv, hch, hf]
          rw [h2]
          exact ⟨hlk, fun p => rfl⟩
        | file g gc =>
          have hg : mdLinkTarget
              (pyLower (ma ++ "." ++ natRepr (digitsToNat mi - 1))) g = true := by
            have := List.find?_some hf
            simpa [linkMatch, entryName] using this
          have hgfn : g ≠ fn := by
            intro h
            rw [h, hnm] at hg
            cases hg
          have h2 : (handle_note_linking vault folder noteTitle ma mi).2
              = appendList vault (folder ++ [g])
                ("\n\n[[" ++ pyStrip (pyRstrip noteTitle ['.', 'm', 'd']) ++ "]]") := by
            simp [handle_note_linking, hmv, hch, hf]
          rw [h2]
          constructor
          · rw [appendList_lookup_ne (concat_ne_of_last_ne (fun h => hgfn h.symm))
              (not_properUnder_of_length (by simp))]
            exact hlk
          · intro p
            exact appendList_isDir vault (folder ++ [g]) p _
  · have h2 : (handle_note_linking vault folder noteTitle ma mi).2 = vault := by
      simp [handle_note_linking, hmv]
    rw [h2]
    exact ⟨hlk, fun p => rfl⟩

theorem handle_followup_frame (vault : List Entry) (folder : List String)
    (noteTitle followup fn c : String)
    (hdirf : isDir vault folder = true)
    (hlk : lookupE vault (folder ++ [fn]) = some (.file fn c)) :
    lookupE (handle_followup_note vault folder noteTitle followup
        (folder ++ [fn])).2 (folder ++ [fn])
      = some (.file fn (c ++
          ("\n\n[[" ++ pyStrip (strDropRight (followupTitleOf followup) 3) ++ "]]"))) ∧
    ∀ p, isDir (handle_followup_note vault folder noteTitle followup
        (folder ++ [fn])).2 p = isDir vault p := by
  obtain ⟨ch, hch⟩ := isDir_childrenAt hdirf
  have hmem : fn ∈ ch.map entryName := by
    rw [lookupE_concat, hch] at hlk
    simp only [Option.some_bind] at hlk
    exact List.mem_map.mpr ⟨_, List.mem_of_find?_eq_some hlk, rfl⟩
  have hfree : (ch.map entryName).contains
      (get_unique_filename vault folder (followupTitleOf followup)) = false := by
    have := guf_free vault folder (followupTitleOf followup)
    unfold existingNames at this
    rw [hch] at this
    simpa using this
  have hfn_ne : get_unique_filename vault folder (followupTitleOf followup)
      ≠ fn := by
    intro h
    rw [h] at hfree
    simp only [List.contains, List.elem_eq_mem, decide_eq_false_iff_not] at hfree
    exact hfree hmem
  have hout : (handle_followup_note vault folder noteTitle followup
      (folder ++ [fn])).2
      = appendList
          (writeList vault
            (folder ++ [get_unique_filename vault folder (followupTitleOf followup)])
            ("# " ++ strDropRight (followupTitleOf followup) 3 ++ "\n\n"))
          (folder ++ [fn])
          ("\n\n[[" ++ pyStrip (strDropRight (followupTitleOf followup) 3) ++ "]]") := by
    simp [handle_followup_note]
  rw [hout]
  constructor
  · have hcur1 : lookupE
        (writeList vault
          (folder ++ [get_unique_filename vault folder (followupTitleOf followup)])
          ("# " ++ strDropRight (followupTitleOf followup) 3 ++ "\n\n"))
        (folder ++ [fn]) = some (.file fn c) := by
      rw [writeList_lookup_ne
        (concat_ne_of_last_ne (fun h => hfn_ne h.symm))
        (not_properUnder_of_length (by simp))]
      exact hlk
    exact appendList_lookup_file hcur1
  · intro p
    rw [appendList_isDir, writeList_isDir]

theorem resolve_file_path_concat (fs : List Entry) (folder : List String)
    (fn : String) (hne : folder ≠ []) (hd : isDir fs folder = true) :
    resolve_file_path fs (folder ++ [fn]) = some (folder ++ [fn]) := by
  unfold resolve_file_path
  have h1 : (folder ++ [fn]).dropLast = folder := by simp
  have h2 : (folder ++ [fn]).getLastD "" = fn := List.getLastD_concat _ _ _
  rw [h1, h2]
  have h3 : folder.isEmpty = false := by
    cases folder with
    | nil => exact absurd rfl hne
    | cons a t => rfl
  simp [h3, hd]

def vaultC4x : List Entry := [.dir "notes" []]

/-- Claim C4 counterexample: saving `8.01 note` (content `C`) into `notes`
makes the backward-linking step match the new file itself against the `8.0`
pattern and append a self-link, so reading the note back yields
`C\n\n[[8.01 note]]`, not the persisted content `C`. -/
theorem c4_counterexample :
    resolve_file_path (handle_note_generation vaultC4x "C" "" "8.01 note"
        ["notes"]).2 ["notes", "8.01 note.md"]
      = some ["notes", "8.01 note.md"] ∧
    readFile (handle_note_generation vaultC4x "C" "" "8.01 note" ["notes"]).2
        ["notes", "8.01 note.md"] = some "C\n\n[[8.01 note]]" ∧
    readFile (handle_note_generation vaultC4x "C" "" "8.01 note" ["notes"]).2
        ["notes", "8.01 note.md"] ≠ some "C" := by
  refine ⟨rfl, rfl, by decide⟩

/-- Claim C4 (amended): for every note persisted into a resolved folder,
reading it back by its vault-relative path through the File Path Resolver
returns exactly the content the handler wrote into it — the generated note
text, plus the appended followup link line when a followup was supplied —
provided the note's own filename does not match the `<major>.<minor-1>`
backlink pattern (a zero-padded-minor title such as `8.01 ...` makes the
linking step append a self-link, as the counterexample shows). -/
theorem c4_roundtrip_amended (vault : List Entry)
    (noteContent followup noteTitle0 : String) (location folder : List String)
    (hwf : wfEntries vault = true)
    (hloc : location ≠ [])
    (hres : resolve_directory vault location = some folder)
    (hnoself : selfLinkClash (ensureMd noteTitle0)
      (get_unique_filename vault folder (ensureMd noteTitle0)) = false) :
    resolve_file_path
        (handle_note_generation vault noteContent followup noteTitle0 location).2
        (folder ++ [get_unique_filename vault folder (ensureMd noteTitle0)])
      = some (folder ++ [get_unique_filename vault folder (ensureMd noteTitle0)]) ∧
    readFile
        (handle_note_generation vault noteContent followup noteTitle0 location).2
        (folder ++ [get_unique_filename vault folder (ensureMd noteTitle0)])
      = some (noteContent ++
          (if followup.isEmpty then ""
           else "\n\n[[" ++
             pyStrip (strDropRight (followupTitleOf followup) 3) ++ "]]")) := by
  obtain ⟨hIsDir, hfne⟩ := resolve_directory_isDir hwf hloc hres
  obtain ⟨ch, hch⟩ := isDir_childrenAt hIsDir
  have hfree : (ch.map entryName).contains
      (get_unique_filename vault folder (ensureMd noteTitle0)) = false := by
    have := guf_free vault folder (ensureMd noteTitle0)
    unfold existingNames at this
    rw [hch] at this
    simpa using this
  have hlk1 : lookupE
      (writeList vault
        (folder ++ [get_unique_filename vault folder (ensureMd noteTitle0)])
        noteContent)
      (folder ++ [get_unique_filename vault folder (ensureMd noteTitle0)])
      = some (.file (get_unique_filename vault folder (ensureMd noteTitle0))
          noteContent) :=
    writeList_lookup_fresh hch hfree
  have hdir1 : ∀ p, isDir
      (writeList vault
        (folder ++ [get_unique_filename vault folder (ensureMd noteTitle0)])
        noteContent) p = isDir vault p :=
    fun p => writeList_isDir vault _ p noteContent
  cases location with
  | nil => exact absurd rfl hloc
  | cons l0 ltail =>
    cases hp : parseNumbering (ensureMd noteTitle0) with
    | none =>
      cases hfu : followup.isEmpty with
      | true =>
        have hout : (handle_note_generation vault noteContent followup
            noteTitle0 (l0 :: ltail)).2
            = writeList vault
                (folder ++ [get_unique_filename vault folder (ensureMd noteTitle0)])
                noteContent := by
          simp [handle_note_generation, hres, hp, hfu]
        rw [hout]
        refine ⟨resolve_file_path_concat _ folder _ hfne
          (by rw [hdir1 folder]; exact hIsDir), ?_⟩
        unfold readFile
        rw [hlk1]
        simp
      | false =>
        have hout : (handle_note_generation vault noteContent followup
            noteTitle0 (l0 :: ltail)).2
            = (handle_followup_note
                (writeList vault
                  (folder ++ [get_unique_filename vault folder (ensureMd noteTitle0)])
                  noteContent)
                folder (ensureMd noteTitle0) followup
                (folder ++ [get_unique_filename vault folder (ensureMd noteTitle0)])).2 := by
          simp [handle_note_generation, hres, hp, hfu]
        rw [hout]
        have hdirf : isDir
            (writeList vault
              (folder ++ [get_unique_filename vault folder (ensureMd noteTitle0)])
              noteContent) folder = true := by
          rw [hdir1 folder]; exact hIsDir
        obtain ⟨hlk2, hdir2⟩ := handle_followup_frame _ folder
          (ensureMd noteTitle0) followup _ noteContent hdirf hlk1
        refine ⟨resolve_file_path_concat _ folder _ hfne
          (by rw [hdir2 folder, hdir1 folder]; exact hIsDir), ?_⟩
        unfold readFile
        rw [hlk2]
        simp
    | some pr =>
      obtain ⟨ma, mi⟩ := pr
      have hnm : (if 1 ≤ digitsToNat mi then
          mdLinkTarget (pyLower (ma ++ "." ++ natRepr (digitsToNat mi - 1)))
            (get_unique_filename vault folder (ensureMd noteTitle0))
        else false) = false := by
        unfold selfLinkClash at hnoself
        rw [hp] at hnoself
        exact hnoself
      obtain ⟨hlk2, hdir2⟩ := handle_note_linking_frame
        (writeList vault
          (folder ++ [get_unique_filename vault folder (ensureMd noteTitle0)])
          noteContent)
        folder (ensureMd noteTitle0) ma mi
        (get_unique_filename vault folder (ensureMd noteTitle0)) noteContent
        hlk1 hnm
      cases hfu : followup.isEmpty with
      | true =>
        have hout : (handle_note_generation vault noteContent followup
            noteTitle0 (l0 :: ltail)).2
            = (handle_note_linking
                (writeList vault
                  (folder ++ [get_unique_filename vault folder (ensureMd noteTitle0)])
                  noteContent)
                folder (ensureMd noteTitle0) ma mi).2 := by
          simp [handle_note_generation, hres, hp, hfu]
        rw [hout]
        refine ⟨resolve_file_path_concat _ folder _ hfne
          (by rw [hdir2 folder, hdir1 folder]; exact hIsDir), ?_⟩
        unfold readFile
        rw [hlk2]
        simp
      | false =>
        have hout : (handle_note_generation vault noteContent followup
            noteTitle0 (l0 :: ltail)).2
            = (handle_followup_note
                (handle_note_linking
                  (writeList vault
                    (folder ++ [get_unique_filename vault folder (ensureMd noteTitle0)])
                    noteContent)
                  folder (ensureMd noteTitle0) ma mi).2
                folder (ensureMd noteTitle0) followup
                (folder ++ [get_unique_filename vault folder (ensureMd noteTitle0)])).2 := by
          simp [handle_note_generation, hres, hp, hfu]
        rw [hout]
        have hdirf : isDir (handle_note_linking
            (writeList vault
              (folder ++ [get_unique_filename vault folder (ensureMd noteTitle0)])
              noteContent)
            folder (ensureMd noteTitle0) ma mi).2 folder = true := by
          rw [hdir2 folder, hdir1 folder]; exact hIsDir
        obtain ⟨hlk3, hdir3⟩ := handle_followup_frame _ folder
          (ensureMd noteTitle0) followup _ noteContent hdirf hlk2
        refine ⟨resolve_file_path_concat _ folder _ hfne
          (by rw [hdir3 folder, hdir2 folder, hdir1 folder]; exact hIsDir), ?_⟩
        unfold readFile
        rw [hlk3]
        simp

def vaultC4w : List Entry := [.dir "notes" [.file "8.1 Prior.md" "P"]]

theorem c4_witness :
    wfEntries vaultC4w = true ∧
    selfLinkClash (ensureMd "8.2 New")
      (get_unique_filename vaultC4w ["notes"] (ensureMd "8.2 New")) = false ∧
    (resolve_file_path
        (handle_note_generation vaultC4w "C" "" "8.2 New" ["notes"]).2
        (["notes"] ++ [get_unique_filename vaultC4w ["notes"] (ensureMd "8.2 New")])
      = some (["notes"]
          ++ [get_unique_filename vaultC4w ["notes"] (ensureMd "8.2 New")]) ∧
    readFile (handle_note_generation vaultC4w "C" "" "8.2 New" ["notes"]).2
        (["notes"] ++ [get_unique_filename vaultC4w ["notes"] (ensureMd "8.2 New")])
      = some ("C" ++
          (if ("" : String).isEmpty then ""
           else "\n\n[[" ++ pyStrip (strDropRight (followupTitleOf "") 3) ++ "]]"))) := by
  have hwf : wfEntries vaultC4w = true := by
    simp [vaultC4w, wfEntries, entryName]
  have hnoself : selfLinkClash (ensureMd "8.2 New")
      (get_unique_filename vaultC4w ["notes"] (ensureMd "8.2 New")) = false := by
    decide
  exact ⟨hwf, hnoself,
    c4_roundtrip_amended vaultC4w "C" "" "8.2 New" ["notes"] ["notes"]
      hwf (by simp) rfl hnoself⟩

def vaultC9x : List Entry := [.dir "a" [.dir "b" [.dir "c" []]]]

/-- Claim C9 counterexample: in the vault `a/b/c` the walker places the node
for `a/b/c` at the top level of the structure (its parent `a/b` is nested
inside `a`'s node and thus never found by the top-level parent lookup), so not
every directory is nested under its parent's node. -/
theorem c9_counterexample :
    (get_vault_structure vaultC9x).map VNode.path
      = [[], ["a"], ["a", "b", "c"]] ∧
    ¬ ((["a", "b"], ["a", "b", "c"])
        ∈ nodesPairs (get_vault_structure vaultC9x)) := by
  constructor <;>
    simp [get_vault_structure, walkVisit, walkVisitKids, buildStructure,
      placeNode, addNode, mkNode, mdFileList, nodesPairs, VNode.path,
      VNode.addChild, pyStartsWith, charsStart, vaultC9x]

theorem buildStructure_append (l1 l2 : List (List String × List Entry)) :
    ∀ st, buildStructure st (l1 ++ l2)
      = buildStructure (buildStructure st l1) l2 := by
  induction l1 with
  | nil => intro st; rfl
  | cons h t ih =>
    intro st
    obtain ⟨p, es⟩ := h
    simp only [List.cons_append, buildStructure]
    exact ih _

theorem walkVisitKids_nil_of_no_visible :
    ∀ (ch : List Entry) (pre : List String), visibleDirs ch = [] →
      walkVisitKids pre ch = [] := by
  intro ch
  induction ch with
  | nil => intro pre _; simp [walkVisitKids]
  | cons e rest ih =>
    intro pre hvis
    cases e with
    | file m c =>
      rw [show walkVisitKids pre (Entry.file m c :: rest)
        = walkVisitKids pre rest from by simp [walkVisitKids]]
      exact ih pre (by simpa [visibleDirs] using hvis)
    | dir m mch =>
      cases hh : pyStartsWith m "." with
      | true =>
        rw [show walkVisitKids pre (Entry.dir m mch :: rest)
          = walkVisitKids pre rest from by simp [walkVisitKids, hh]]
        apply ih
        unfold visibleDirs at hvis ⊢
        simpa [hh] using hvis
      | false =>
        exfalso
        unfold visibleDirs at hvis
        simp [hh] at hvis

theorem addNode_found :
    ∀ (st1 : List VNode) (v : VNode) (st2 : List VNode) (pp : List String)
      (nd : VNode), (∀ x ∈ st1, x.path ≠ pp) → v.path = pp →
      addNode (st1 ++ v :: st2) pp nd = st1 ++ v.addChild nd :: st2 := by
  intro st1
  induction st1 with
  | nil =>
    intro v st2 pp nd _ hv
    simp only [List.nil_append, addNode]
    rw [if_pos (by simpa using hv)]
  | cons x st1' ih =>
    intro v st2 pp nd hst hv
    simp only [List.cons_append, addNode]
    rw [if_neg (by simpa using hst x (by simp))]
    exact congrArg (fun l => x :: l)
      (ih v st2 pp nd (fun y hy => hst y (by simp [hy])) hv)

theorem build_sub (n : String) :
    ∀ (ch : List Entry) (st1 : List VNode) (fl : List (String × List String))
      (ds : List VNode),
      (∀ x ∈ st1, x.path ≠ [n]) →
      (∀ pr ∈ visibleDirs ch, visibleDirs pr.2 = []) →
      buildStructure (st1 ++ [VNode.node [n] n fl ds]) (walkVisitKids [n] ch)
        = st1 ++ [VNode.node [n] n fl
            (ds ++ (visibleDirs ch).map (fun pr =>
              VNode.node [n, pr.1] pr.1 (mdFileList [n, pr.1] pr.2) []))] := by
  intro ch
  induction ch with
  | nil =>
    intro st1 fl ds _ _
    simp [walkVisitKids, buildStructure, visibleDirs]
  | cons e rest ih =>
    intro st1 fl ds hst hd2
    cases e with
    | file m c =>
      rw [show walkVisitKids [n] (Entry.file m c :: rest)
        = walkVisitKids [n] rest from by simp [walkVisitKids]]
      rw [show visibleDirs (Entry.file m c :: rest) = visibleDirs rest from by
        simp [visibleDirs]]
      exact ih st1 fl ds hst (fun pr hpr => hd2 pr (by
        rw [show visibleDirs (Entry.file m c :: rest) = visibleDirs rest from by
          simp [visibleDirs]]
        exact hpr))
    | dir m mch =>
      cases hh : pyStartsWith m "." with
      | true =>
        rw [show walkVisitKids [n] (Entry.dir m mch :: rest)
          = walkVisitKids [n] rest from by simp [walkVisitKids, hh]]
        rw [show visibleDirs (Entry.dir m mch :: rest) = visibleDirs rest from by
          simp [visibleDirs, hh]]
        exact ih st1 fl ds hst (fun pr hpr => hd2 pr (by
          rw [show visibleDirs (Entry.dir m mch :: rest) = visibleDirs rest from by
            simp [visibleDirs, hh]]
          exact hpr))
      | false =>
        have hvc : visibleDirs (Entry.dir m mch :: rest)
            = (m, mch) :: visibleDirs rest := by
          simp [visibleDirs, hh]
        have hmch : visibleDirs mch = [] :=
          hd2 (m, mch) (by rw [hvc]; simp)
        rw [show walkVisitKids [n] (Entry.dir m mch :: rest)
          = (([n] ++ [m], mch) :: walkVisitKids ([n] ++ [m]) mch)
            ++ walkVisitKids [n] rest from by simp [walkVisitKids, hh]]
        rw [walkVisitKids_nil_of_no_visible mch ([n] ++ [m]) hmch]
        simp only [List.cons_append, List.nil_append, buildStructure]
        have hplace : placeNode (st1 ++ [VNode.node [n] n fl ds])
            (([n, m] : List String).dropLast) (mkNode [n, m] mch)
            = st1 ++ [VNode.node [n] n fl
                (ds ++ [VNode.node [n, m] m (mdFileList [n, m] mch) []])] := by
          have hdl : (([n, m]) : List String).dropLast = [n] := rfl
          have hmk : mkNode [n, m] mch
              = VNode.node [n, m] m (mdFileList [n, m] mch) [] := rfl
          rw [hdl, hmk]
          unfold placeNode
          rw [if_neg (by simp)]
          exact addNode_found st1 (VNode.node [n] n fl ds) []
            [n] (VNode.node [n, m] m (mdFileList [n, m] mch) []) hst rfl
        rw [hplace]
        rw [show (([] : List (List String × List Entry)).append
          (walkVisitKids [n] rest)) = walkVisitKids [n] rest from rfl]
        rw [ih st1 fl (ds ++ [VNode.node [n, m] m (mdFileList [n, m] mch) []])
          hst (fun pr hpr => hd2 pr (by rw [hvc]; exact List.mem_cons_of_mem _ hpr))]
        rw [hvc]
        simp

theorem build_tops :
    ∀ (es : List Entry) (st0 : List VNode),
      (∀ pr ∈ visibleDirs es, ∀ x ∈ st0, VNode.path x ≠ [pr.1]) →
      distinctB ((visibleDirs es).map Prod.fst) = true →
      (∀ pr ∈ visibleDirs es, ∀ pr2 ∈ visibleDirs pr.2,
        visibleDirs pr2.2 = []) →
      buildStructure st0 (walkVisitKids [] es)
        = st0 ++ (visibleDirs es).map (fun pr =>
            VNode.node [pr.1] pr.1 (mdFileList [pr.1] pr.2)
              ((visibleDirs pr.2).map (fun pr2 =>
                VNode.node [pr.1, pr2.1] pr2.1
                  (mdFileList [pr.1, pr2.1] pr2.2) []))) := by
  intro es
  induction es with
  | nil =>
    intro st0 _ _ _
    simp [walkVisitKids, buildStructure, visibleDirs]
  | cons e rest ih =>
    intro st0 hfresh hdis hd2
    cases e with
    | file m c =>
      have hvc : visibleDirs (Entry.file m c :: rest) = visibleDirs rest := by
        simp [visibleDirs]
      rw [show walkVisitKids [] (Entry.file m c :: rest)
        = walkVisitKids [] rest from by simp [walkVisitKids]]
      rw [hvc] at hfresh hdis hd2 ⊢
      exact ih st0 hfresh hdis hd2
    | dir m mch =>
      cases hh : pyStartsWith m "." with
      | true =>
        have hvc : visibleDirs (Entry.dir m mch :: rest) = visibleDirs rest := by
          simp [visibleDirs, hh]
        rw [show walkVisitKids [] (Entry.dir m mch :: rest)
          = walkVisitKids [] rest from by simp [walkVisitKids, hh]]
        rw [hvc] at hfresh hdis hd2 ⊢
        exact ih st0 hfresh hdis hd2
      | false =>
        have hvc : visibleDirs (Entry.dir m mch :: rest)
            = (m, mch) :: visibleDirs rest := by
          simp [visibleDirs, hh]
        rw [show walkVisitKids [] (Entry.dir m mch :: rest)
          = (([m], mch) :: walkVisitKids [m] mch) ++ walkVisitKids [] rest
          from by simp [walkVisitKids, hh]]
        rw [buildStructure_append]
        have hstep : buildStructure st0 (([m], mch) :: walkVisitKids [m] mch)
            = st0 ++ [VNode.node [m] m (mdFileList [m] mch)
                ((visibleDirs mch).map (fun pr2 =>
                  VNode.node [m, pr2.1] pr2.1 (mdFileList [m, pr2.1] pr2.2) []))] := by
          rw [show buildStructure st0 (([m], mch) :: walkVisitKids [m] mch)
            = buildStructure (st0 ++ [VNode.node [m] m (mdFileList [m] mch) []])
                (walkVisitKids [m] mch) from by
              simp [buildStructure, placeNode, mkNode]]
          rw [build_sub m mch st0 (mdFileList [m] mch) []
            (fun x hx => hfresh (m, mch) (by rw [hvc]; simp) x hx)
            (hd2 (m, mch) (by rw [hvc]; simp))]
          simp
        rw [hstep]
        have hdis' : distinctB ((visibleDirs rest).map Prod.fst) = true := by
          rw [hvc] at hdis
          simp only [List.map_cons, distinctB, Bool.and_eq_true] at hdis
          exact hdis.2
        have hmnotin : ¬ m ∈ (visibleDirs rest).map Prod.fst := by
          rw [hvc] at hdis
          simp only [List.map_cons, distinctB, Bool.and_eq_true] at hdis
          have := hdis.1
          simpa [List.contains] using this
        have hfresh' : ∀ pr ∈ visibleDirs rest,
            ∀ x ∈ st0 ++ [VNode.node [m] m (mdFileList [m] mch)
              ((visibleDirs mch).map (fun pr2 =>
                VNode.node [m, pr2.1] pr2.1 (mdFileList [m, pr2.1] pr2.2) []))],
            VNode.path x ≠ [pr.1] := by
          intro pr hpr x hx
          rcases List.mem_append.mp hx with hx0 | hx1
          · exact hfresh pr (by rw [hvc]; exact List.mem_cons_of_mem _ hpr) x hx0
          · have hxe : x = VNode.node [m] m (mdFileList [m] mch)
                ((visibleDirs mch).map (fun pr2 =>
                  VNode.node [m, pr2.1] pr2.1 (mdFileList [m, pr2.1] pr2.2) [])) := by
              simpa using hx1
            rw [hxe]
            simp only [VNode.path]
            intro hcon
            have : m = pr.1 := by simpa using hcon
            exact hmnotin (this ▸ List.mem_map.mpr ⟨pr, hpr, rfl⟩)
        have hd2' : ∀ pr ∈ visibleDirs rest, ∀ pr2 ∈ visibleDirs pr.2,
            visibleDirs pr2.2 = [] := by
          intro pr hpr
          exact hd2 pr (by rw [hvc]; exact List.mem_cons_of_mem _ hpr)
        rw [ih _ hfresh' hdis' hd2']
        rw [hvc]
        simp

/-- Claim C9 (amended): the walker emits the root node first (with the vault
root's `.md` files) and one node per visible top-level directory as FURTHER
TOP-LEVEL entries (not nested under the root node); for vaults with distinct
visible top-level directory names and no visible directory deeper than two
levels, every depth-2 directory is nested under its depth-1 parent's node.
Hidden directories are skipped and only `.md` files are listed.  Directories
at depth 3 or more are instead appended to the top-level list, as the
counterexample shows. -/
theorem c9_structure_amended (vault : List Entry)
    (hd2 : ∀ pr ∈ visibleDirs vault, ∀ pr2 ∈ visibleDirs pr.2,
      visibleDirs pr2.2 = [])
    (hnodup : distinctB ((visibleDirs vault).map Prod.fst) = true) :
    get_vault_structure vault
      = VNode.node [] "Root" (mdFileList [] vault) []
        :: (visibleDirs vault).map (fun pr =>
            VNode.node [pr.1] pr.1 (mdFileList [pr.1] pr.2)
              ((visibleDirs pr.2).map (fun pr2 =>
                VNode.node [pr.1, pr2.1] pr2.1
                  (mdFileList [pr.1, pr2.1] pr2.2) []))) := by
  unfold get_vault_structure walkVisit
  rw [show buildStructure [] (([], vault) :: walkVisitKids [] vault)
    = buildStructure [VNode.node [] "Root" (mdFileList [] vault) []]
        (walkVisitKids [] vault) from by
      simp [buildStructure, placeNode, mkNode]]
  rw [build_tops vault [VNode.node [] "Root" (mdFileList [] vault) []]
    (by intro pr _ x hx
        have hxe : x = VNode.node [] "Root" (mdFileList [] vault) [] := by
          simpa using hx
        rw [hxe]
        simp [VNode.path])
    hnodup hd2]
  simp

def vaultC9w : List Entry :=
  [.dir "a" [.file "x.md" "1", .dir "b" [.file "y.md" "2"],
    .dir ".hid" [.dir "z" []]],
   .file "top.md" "t", .dir "c2" []]

theorem c9_witness :
    (∀ pr ∈ visibleDirs vaultC9w, ∀ pr2 ∈ visibleDirs pr.2,
      visibleDirs pr2.2 = []) ∧
    distinctB ((visibleDirs vaultC9w).map Prod.fst) = true ∧
    get_vault_structure vaultC9w
      = VNode.node [] "Root" (mdFileList [] vaultC9w) []
        :: (visibleDirs vaultC9w).map (fun pr =>
            VNode.node [pr.1] pr.1 (mdFileList [pr.1] pr.2)
              ((visibleDirs pr.2).map (fun pr2 =>
                VNode.node [pr.1, pr2.1] pr2.1
                  (mdFileList [pr.1, pr2.1] pr2.2) []))) := by
  have h1 : ∀ pr ∈ visibleDirs vaultC9w, ∀ pr2 ∈ visibleDirs pr.2,
      visibleDirs pr2.2 = [] := by
    intro pr hpr pr2 hpr2
    simp only [vaultC9w, visibleDirs, List.filterMap] at hpr
    fin_cases hpr <;> simp_all [visibleDirs, pyStartsWith, charsStart]
  have h2 : distinctB ((visibleDirs vaultC9w).map Prod.fst) = true := by
    simp [vaultC9w, visibleDirs, distinctB, pyStartsWith, charsStart]
  exact ⟨h1, h2, c9_structure_amended vaultC9w h1 h2⟩
